import Mathlib

/-!
# skeema / mybase: option model and option-token normalization

A shallow embedding of `vendor/github.com/skeema/mybase/option.go` (namespace
`Mybase`) and of `linter/check_reserved_keyword.go` (namespace `Linter`).

Modelling conventions
* A Go `string` is modelled as the list of its runes (`List Char`); inputs are
  taken to be well-formed UTF-8, so splitting on the byte `=` and slicing off
  an ASCII prefix (`key[6:]`) coincide with the same operations on runes.
* `strings.SplitN`, `strings.TrimFunc`, `strings.ToLower`, `strings.Replace`,
  `strings.HasPrefix` and `unicode.IsSpace` belong to the Go standard library;
  they are modelled here by what their documentation states.  The one part of
  them that is a large data table, the Unicode case table for runes above
  U+007F, is a parameter `tbl : Char → Char` of every definition that
  lower-cases.
* What `Option.Usage` reads from its environment is an argument of the model:
  whether standard error is a terminal, the width the terminal reports, and
  the function `wordwrap.WrapString`.  Lengths that the code takes with `len`
  are byte lengths (`byteLen`); field widths of `fmt` count runes.
* A Go `panic` is modelled by `Except.error`.
* Methods with a pointer receiver that mutate and return the receiver are
  functions from the old record to the new one.
-/

namespace Mybase

/-! ## Standard-library string primitives -/

/-- Go `unicode.IsSpace`: in Latin-1 the runes tab, newline, vertical tab, form
feed, carriage return, space, U+0085 and U+00A0; above Latin-1 the runes with
the Unicode property White_Space. -/
def IsSpace (r : Char) : Bool :=
  let n := r.toNat
  if n ≤ 0xFF then
    n == 0x09 || n == 0x0A || n == 0x0B || n == 0x0C || n == 0x0D || n == 0x20
      || n == 0x85 || n == 0xA0
  else
    n == 0x1680 || (0x2000 ≤ n && n ≤ 0x200A) || n == 0x2028 || n == 0x2029
      || n == 0x202F || n == 0x205F || n == 0x3000

/-- Go `strings.TrimFunc(s, f)`: `s` without its leading and its trailing runes
that satisfy `f` (`TrimRightFunc (TrimLeftFunc s f) f`). -/
def TrimFunc (s : List Char) (f : Char → Bool) : List Char :=
  (s.dropWhile f).rdropWhile f

/-- Go `unicode.ToLower`: the ASCII range is handled directly (`A`..`Z` go to
`a`..`z`, every other ASCII rune is unchanged); a rune above U+007F is looked
up in the Unicode case table `tbl`. -/
def unicodeToLower (tbl : Char → Char) (r : Char) : Char :=
  if r.toNat ≤ 0x7F then Char.toLower r else tbl r

/-- Go `strings.ToLower`: every rune mapped to its lower case. -/
def ToLower (tbl : Char → Char) (s : List Char) : List Char :=
  s.map (unicodeToLower tbl)

/-- Go `strings.Replace(s, old, new, -1)` for one-rune `old` and `new`: every
occurrence of `old` replaced by `new`. -/
def Replace (s : List Char) (old new : Char) : List Char :=
  s.map (fun c => if c = old then new else c)

/-- Go `strings.HasPrefix`. -/
def HasPrefix (s pre : List Char) : Bool :=
  pre.isPrefixOf s

/-- Go `strings.SplitN(s, "=", 2)`: `[s]` when `s` has no `=`, otherwise the
part before the first `=` and the whole part after it. -/
def SplitN2 (s : List Char) : List (List Char) :=
  match s.span (fun c => c != '=') with
  | (k, []) => [k]
  | (k, _ :: v) => [k, v]

/-! ## Token normalization -/

/-- `NormalizeOptionToken` (option.go, lines 188-234).  The result is the
tuple `(key, value, hasValue, loose)`. -/
def NormalizeOptionToken (tbl : Char → Char) (arg : List Char) :
    List Char × List Char × Bool × Bool :=
  let tokens := SplitN2 arg
  let key := TrimFunc (tokens.headD []) IsSpace
  if key = [] then
    ([], [], false, false)
  else
    let key := ToLower tbl key
    let key := Replace key '_' '-'
    let (key, loose) :=
      if HasPrefix key "loose-".toList then (key.drop 6, true) else (key, false)
    let (key, negated) :=
      if HasPrefix key "skip-".toList then (key.drop 5, true)
      else if HasPrefix key "disable-".toList then (key.drop 8, true)
      else if HasPrefix key "enable-".toList then (key.drop 7, false)
      else (key, false)
    match tokens.tail with
    | v :: _ =>
      let value := TrimFunc v IsSpace
      if negated then
        if ToLower tbl value = "off".toList ∨ ToLower tbl value = "false".toList
            ∨ ToLower tbl value = "0".toList then
          (key, "1".toList, true, loose)
        else
          (key, [], true, loose)
      else
        (key, value, true, loose)
    | [] =>
      if negated then (key, [], true, loose) else (key, [], false, loose)

/-- `NormalizeOptionName` (option.go, lines 238-241). -/
def NormalizeOptionName (tbl : Char → Char) (name : List Char) : List Char :=
  (NormalizeOptionToken tbl name).1

/-! ## The vocabulary of the specification for tokens -/

/-- The part of a raw token before its first `=` (the whole token when it has
none). -/
def keyPart (arg : List Char) : List Char :=
  arg.takeWhile (fun c => c != '=')

/-- Everything after the first `=` of a raw token (empty when it has none). -/
def valuePart (arg : List Char) : List Char :=
  (arg.dropWhile (fun c => c != '=')).tail

/-- The normalized key of a raw token: its key part with surrounding
whitespace trimmed, lower-cased, every `_` replaced by `-`; no prefix is
stripped yet. -/
def normalizedKey (tbl : Char → Char) (arg : List Char) : List Char :=
  Replace (ToLower tbl (TrimFunc (keyPart arg) IsSpace)) '_' '-'

/-- A key without one leading `loose-`, when it has one. -/
def stripLoose (k : List Char) : List Char :=
  if HasPrefix k "loose-".toList then k.drop 6 else k

/-- Whether a key (already without `loose-`) carries a negation prefix, `skip-`
or `disable-`. -/
def isNegated (k : List Char) : Bool :=
  HasPrefix k "skip-".toList || HasPrefix k "disable-".toList

/-- A key (already without `loose-`) without the first of the prefixes `skip-`,
`disable-`, `enable-` that it starts with, when there is one. -/
def stripNeg (k : List Char) : List Char :=
  if HasPrefix k "skip-".toList then k.drop 5
  else if HasPrefix k "disable-".toList then k.drop 8
  else if HasPrefix k "enable-".toList then k.drop 7
  else k

/-- A value is falsey when, lower-cased, it is `off`, `false` or `0`. -/
def isFalsey (tbl : Char → Char) (v : List Char) : Prop :=
  ToLower tbl v = "off".toList ∨ ToLower tbl v = "false".toList ∨ ToLower tbl v = "0".toList

instance (tbl : Char → Char) (v : List Char) : Decidable (isFalsey tbl v) := by
  unfold isFalsey; infer_instance

/-- A canonical option name: a name that normalization leaves as it is.  It is
non-empty, lower-case, hyphenated (no `_`), carries none of the recognised
prefixes `loose-`, `skip-`, `disable-`, `enable-`, and, being a name and not a
token, has no `=` and no surrounding whitespace. -/
def isCanonicalName (tbl : Char → Char) (x : List Char) : Prop :=
  x ≠ [] ∧ ToLower tbl x = x ∧ '_' ∉ x ∧ '=' ∉ x ∧ TrimFunc x IsSpace = x
    ∧ HasPrefix x "loose-".toList = false ∧ HasPrefix x "skip-".toList = false
    ∧ HasPrefix x "disable-".toList = false ∧ HasPrefix x "enable-".toList = false

instance (tbl : Char → Char) (x : List Char) : Decidable (isCanonicalName tbl x) := by
  unfold isCanonicalName; infer_instance

/-! ## The option record, its constructors and modifiers -/

/-- Go `type OptionType int`. -/
abbrev OptionType := Int

/-- String-valued option (`iota` = 0). -/
def OptionTypeString : OptionType := 0

/-- Boolean-valued option (`iota` = 1). -/
def OptionTypeBool : OptionType := 1

/-- The struct `Option` (option.go, lines 30-38); `Shorthand` is a rune
(`int32`), the field `Type` is spelled `Type'`. -/
structure Option where
  Name : List Char
  Shorthand : Int
  Type' : OptionType
  Default : List Char
  Description : List Char
  RequireValue : Bool
  HiddenOnCLI : Bool
deriving DecidableEq

/-- `StringOption` (option.go, lines 42-51). -/
def StringOption (long : List Char) (short : Int) (defaultValue : List Char)
    (description : List Char) : Option :=
  { Name := Replace long '_' '-'
    Shorthand := short
    Type' := OptionTypeString
    Default := defaultValue
    Description := description
    RequireValue := true
    HiddenOnCLI := false }

/-- `BoolOption` (option.go, lines 55-70). -/
def BoolOption (long : List Char) (short : Int) (defaultValue : Bool)
    (description : List Char) : Option :=
  let defaultAsStr := if defaultValue then "1".toList else "".toList
  { Name := Replace long '_' '-'
    Shorthand := short
    Type' := OptionTypeBool
    Default := defaultAsStr
    Description := description
    RequireValue := false
    HiddenOnCLI := false }

/-- `Option.Hidden` (option.go, lines 74-77). -/
def Option.Hidden (opt : Option) : Option :=
  { opt with HiddenOnCLI := true }

/-- `Option.ValueRequired` (option.go, lines 81-87); the panic is the error
result, carrying the panic message. -/
def Option.ValueRequired (opt : Option) : Except (List Char) Option :=
  if opt.Type' = OptionTypeBool then
    .error ("Option ".toList ++ opt.Name ++ ": boolean options cannot have required value".toList)
  else
    .ok { opt with RequireValue := true }

/-- `Option.ValueOptional` (option.go, lines 91-94). -/
def Option.ValueOptional (opt : Option) : Option :=
  { opt with RequireValue := false }

/-- One call of a chainable modifier. -/
inductive Modifier where
  | Hidden
  | ValueRequired
  | ValueOptional
deriving DecidableEq

/-- The effect of one modifier call on an option; only `ValueRequired` can
fail. -/
def Modifier.apply (m : Modifier) (opt : Option) : Except (List Char) Option :=
  match m with
  | .Hidden => .ok opt.Hidden
  | .ValueRequired => opt.ValueRequired
  | .ValueOptional => .ok opt.ValueOptional

/-- A chain of modifier calls `opt.m₁().m₂()...`, stopping at the first
panic. -/
def applyModifiers (opt : Option) : List Modifier → Except (List Char) Option
  | [] => .ok opt
  | m :: ms =>
    match m.apply opt with
    | .error e => .error e
    | .ok o => applyModifiers o ms

/-! ## Formatting primitives of the standard library -/

/-- Go `len(s)`: the number of bytes of the UTF-8 encoding of `s`. -/
def byteLen (s : List Char) : Nat :=
  (s.map (fun c => c.utf8Size)).sum

/-- Go `strings.Repeat(" ", n)` for `n ≥ 0`. -/
def spaces (n : Nat) : List Char :=
  List.replicate n ' '

/-- Go `strings.Replace(s, old, new, -1)` for a one-rune `old` and a string
`new`: every occurrence of `old` replaced by `new`. -/
def ReplaceWith (s : List Char) (old : Char) (new : List Char) : List Char :=
  match s with
  | [] => []
  | c :: cs => if c = old then new ++ ReplaceWith cs old new else c :: ReplaceWith cs old new

/-- The verb `%c` of Go `fmt` applied to a rune: the rune itself, or U+FFFD
when the number is not a valid code point. -/
def fmtC (r : Int) : Char :=
  if 0 ≤ r ∧ r.toNat.isValidChar then Char.ofNat r.toNat else Char.ofNat 0xFFFD

/-- The verb `%3s` of Go `fmt`: the string right-justified in a field of 3
runes (blanks are put before a shorter string). -/
def fmtS3 (s : List Char) : List Char :=
  spaces (3 - s.length) ++ s

/-- The verb `%*s` of Go `fmt` with the width argument `wid`: a negative width
sets the `-` flag, so the string is left-justified in a field of `-wid` runes
(blanks follow it); a positive width right-justifies it; a width beyond one
million in absolute value is refused with the text `%!(BADWIDTH)` and no
padding. -/
def fmtStarS (wid : Int) (s : List Char) : List Char :=
  if wid > 1000000 ∨ wid < -1000000 then "%!(BADWIDTH)".toList ++ s
  else if wid < 0 then s ++ spaces (wid.natAbs - s.length)
  else spaces (wid.toNat - s.length) ++ s

/-- The Go conversion `uint(x)` of an `int` on a 64-bit platform. -/
def uintOf (x : Int) : Nat :=
  (x % 2 ^ 64).toNat

/-! ## Usage text -/

/-- `Option.HasNonzeroDefault` (option.go, lines 151-165). -/
def Option.HasNonzeroDefault (tbl : Char → Char) (opt : Option) : Bool :=
  if opt.Type' = OptionTypeString then
    decide (opt.Default ≠ "".toList)
  else if opt.Type' = OptionTypeBool then
    if ToLower tbl opt.Default = "".toList ∨ ToLower tbl opt.Default = "0".toList
        ∨ ToLower tbl opt.Default = "off".toList ∨ ToLower tbl opt.Default = "false".toList then
      false
    else
      true
  else
    false

/-- `Option.PrintableDefault` (option.go, lines 169-181). -/
def Option.PrintableDefault (tbl : Char → Char) (opt : Option) : List Char :=
  if opt.Type' = OptionTypeBool then
    if ToLower tbl opt.Default = "".toList ∨ ToLower tbl opt.Default = "0".toList
        ∨ ToLower tbl opt.Default = "off".toList ∨ ToLower tbl opt.Default = "false".toList then
      "false".toList
    else
      "true".toList
  else
    '"' :: opt.Default ++ ['"']

/-- `Option.usageName` (option.go, lines 135-147). -/
def Option.usageName (tbl : Char → Char) (opt : Option) : List Char :=
  if opt.HiddenOnCLI then
    "".toList
  else if opt.Type' = OptionTypeBool then
    if opt.HasNonzeroDefault tbl then "[skip-]".toList ++ opt.Name
    else opt.Name
  else if opt.RequireValue then
    opt.Name ++ " value".toList
  else
    opt.Name ++ "[=value]".toList

/-- `Option.Usage` (option.go, lines 97-131).  What the function reads from its
environment is passed in: `isTerminal` is the answer of `terminal.IsTerminal`
for standard error, `termWidth` the width that `terminal.GetSize` reports, and
`wrap` is `wordwrap.WrapString`, which is not part of this file. -/
def Option.Usage (tbl : Char → Char) (wrap : List Char → Nat → List Char)
    (isTerminal : Bool) (termWidth : Int) (opt : Option) (maxNameLength : Int) :
    List Char :=
  if opt.HiddenOnCLI then
    "".toList
  else
    let lineLen : Int :=
      if isTerminal then (if termWidth < 80 then 80 else termWidth) else 10000
    let shorthand : List Char :=
      if opt.Shorthand > 0 then '-' :: fmtC opt.Shorthand :: [','] else "".toList
    let defText : List Char :=
      if opt.HasNonzeroDefault tbl then
        if opt.Type' = OptionTypeBool then
          " (enabled by default; disable with --skip-".toList ++ opt.Name ++ ")".toList
        else
          " (default ".toList ++ opt.PrintableDefault tbl ++ ")".toList
      else "".toList
    let head : List Char :=
      "  ".toList ++ fmtS3 shorthand ++ " --".toList
        ++ fmtStarS (-1 * maxNameLength) (opt.usageName tbl) ++ "  ".toList
    let desc : List Char := opt.Description ++ defText
    let desc : List Char :=
      if (byteLen desc : Int) + (byteLen head : Int) > lineLen then
        let wrapped := wrap desc (uintOf (lineLen - (byteLen head : Int)))
        let spacer := '\n' :: spaces (byteLen head)
        ReplaceWith wrapped '\n' spacer
      else desc
    head ++ desc ++ "\n".toList

/-! ## The vocabulary of the specification for usage text -/

/-- The line width in effect: the detected terminal width, floored at 80, or
10000 when standard error is not a terminal. -/
def lineWidth (isTerminal : Bool) (termWidth : Int) : Int :=
  if isTerminal then max termWidth 80 else 10000

/-- The shorthand text of an option: `-X,` for a shorthand rune `X`, empty when
there is none. -/
def shorthandText (opt : Option) : List Char :=
  if opt.Shorthand > 0 then '-' :: fmtC opt.Shorthand :: [','] else []

/-- The left column of the usage text of an option. -/
def leftColumn (tbl : Char → Char) (opt : Option) (maxNameLength : Int) : List Char :=
  "  ".toList ++ fmtS3 (shorthandText opt) ++ " --".toList
    ++ fmtStarS (-maxNameLength) (opt.usageName tbl) ++ "  ".toList

/-- The description column of the usage text before any wrapping: the
description followed by the clause on a non-zero default. -/
def descColumn (tbl : Char → Char) (opt : Option) : List Char :=
  opt.Description ++
    (if opt.HasNonzeroDefault tbl then
      if opt.Type' = OptionTypeBool then
        " (enabled by default; disable with --skip-".toList ++ opt.Name ++ ")".toList
      else " (default ".toList ++ opt.PrintableDefault tbl ++ ")".toList
     else [])

/-- The first physical line of a text: what precedes its first newline. -/
def firstLine (s : List Char) : List Char :=
  s.takeWhile (fun c => c != '\n')

/-- The physical lines of a text after the first: what follows each newline,
up to the next one. -/
def restLines : List Char → List (List Char)
  | [] => []
  | c :: cs => if c = '\n' then firstLine cs :: restLines cs else restLines cs

/-- The physical lines of a text, cut at its newlines. -/
def physicalLines (s : List Char) : List (List Char) :=
  firstLine s :: restLines s

/-! ## Errors -/

/-- The struct `OptionNotDefinedError` (option.go, lines 244-247). -/
structure OptionNotDefinedError where
  Name : List Char
  Source : List Char
deriving DecidableEq

/-- `OptionNotDefinedError.Error` (option.go, lines 250-256). -/
def OptionNotDefinedError.Error (ond : OptionNotDefinedError) : List Char :=
  let source : List Char := if ond.Source ≠ "".toList then ond.Source ++ ": ".toList else "".toList
  source ++ "Unknown option \"".toList ++ ond.Name ++ "\"".toList

/-- The struct `OptionMissingValueError` (option.go, lines 260-263). -/
structure OptionMissingValueError where
  Name : List Char
  Source : List Char
deriving DecidableEq

/-- `OptionMissingValueError.Error` (option.go, lines 266-272). -/
def OptionMissingValueError.Error (omv : OptionMissingValueError) : List Char :=
  let source : List Char := if omv.Source ≠ "".toList then omv.Source ++ ": ".toList else "".toList
  source ++ "Missing required value for option ".toList ++ omv.Name

end Mybase

namespace Linter

/-! ## The reserved-words lint rule (`linter/check_reserved_keyword.go`)

The package `tengo` and the rest of the package `linter` are not part of these
sources.  Their types are declared here as far as the checker reads them; what
the checker only passes on (`Flavor.String`, and the search of the first line
of the CREATE statement matching an identifier) is a parameter of the
definitions. -/

/-- The type `tengo.Vendor`, an `int` enumeration. -/
abbrev Vendor := Int

/-- `tengo.VendorUnknown` (`iota` = 0). -/
def VendorUnknown : Vendor := 0

/-- `tengo.VendorMySQL`. -/
def VendorMySQL : Vendor := 1

/-- `tengo.VendorPercona`. -/
def VendorPercona : Vendor := 2

/-- `tengo.VendorMariaDB`. -/
def VendorMariaDB : Vendor := 3

/-- The struct `tengo.Flavor`: a vendor and a version. -/
structure Flavor where
  Vendor : Vendor
  Major : Int
  Minor : Int
deriving DecidableEq

/-- `tengo.FlavorMySQL56`. -/
def FlavorMySQL56 : Flavor := ⟨VendorMySQL, 5, 6⟩

/-- `tengo.FlavorMySQL57`. -/
def FlavorMySQL57 : Flavor := ⟨VendorMySQL, 5, 7⟩

/-- `tengo.FlavorMySQL80`. -/
def FlavorMySQL80 : Flavor := ⟨VendorMySQL, 8, 0⟩

/-- `tengo.FlavorMariaDB101`. -/
def FlavorMariaDB101 : Flavor := ⟨VendorMariaDB, 10, 1⟩

/-- `tengo.FlavorMariaDB102`. -/
def FlavorMariaDB102 : Flavor := ⟨VendorMariaDB, 10, 2⟩

/-- `tengo.FlavorMariaDB103`. -/
def FlavorMariaDB103 : Flavor := ⟨VendorMariaDB, 10, 3⟩

/-- A `tengo.Column`, of which the checker reads the name. -/
structure Column where
  Name : List Char
deriving DecidableEq

/-- A `tengo.ForeignKey`, of which the checker reads the name. -/
structure ForeignKey where
  Name : List Char
deriving DecidableEq

/-- A `tengo.Index`, of which the checker reads the name. -/
structure Index where
  Name : List Char
deriving DecidableEq

/-- A `tengo.Table`, with the fields the checker reads. -/
structure Table where
  Name : List Char
  Columns : List Column
  ForeignKeys : List ForeignKey
  SecondaryIndexes : List Index
deriving DecidableEq

/-- A `tengo.Routine`, of which the checker reads the name. -/
structure Routine where
  Name : List Char
deriving DecidableEq

/-- The object handed to a checker as `interface{}`: a table, a routine, or a
value of another type. -/
inductive Object where
  | table (t : Table)
  | routine (r : Routine)
  | other
deriving DecidableEq

/-- The struct `linter.Note`. -/
structure Note where
  LineOffset : Int
  Summary : List Char
  Message : List Char
deriving DecidableEq

/-- The struct `linter.Options`, of which the checker reads the flavor. -/
structure Options where
  Flavor : Flavor
deriving DecidableEq

/-- The map `mysqlKeywordToFlavor` (lines 11-42), as the list of its entries;
a Go map literal has no two equal keys. -/
def mysqlKeywordToFlavor : List (List Char × Flavor) :=
  [("GET".toList, FlavorMySQL56),
   ("IO_AFTER_GTIDS".toList, FlavorMySQL56),
   ("IO_BEFORE_GTIDS".toList, FlavorMySQL56),
   ("MASTER_BIND".toList, FlavorMySQL56),
   ("GENERATED".toList, FlavorMySQL57),
   ("OPTIMIZER_COSTS".toList, FlavorMySQL57),
   ("STORED".toList, FlavorMySQL57),
   ("VIRTUAL".toList, FlavorMySQL57),
   ("CUME_DIST".toList, FlavorMySQL80),
   ("DENSE_RANK".toList, FlavorMySQL80),
   ("EMPTY".toList, FlavorMySQL80),
   ("EXCEPT".toList, FlavorMySQL80),
   ("FIRST_VALUE".toList, FlavorMySQL80),
   ("GROUPING".toList, FlavorMySQL80),
   ("GROUPS".toList, FlavorMySQL80),
   ("JSON_TABLE".toList, FlavorMySQL80),
   ("LAG".toList, FlavorMySQL80),
   ("LAST_VALUE".toList, FlavorMySQL80),
   ("LATERAL".toList, FlavorMySQL80),
   ("LEAD".toList, FlavorMySQL80),
   ("NTH_VALUE".toList, FlavorMySQL80),
   ("NTILE".toList, FlavorMySQL80),
   ("OF".toList, FlavorMySQL80),
   ("OVER".toList, FlavorMySQL80),
   ("PERCENT_RANK".toList, FlavorMySQL80),
   ("RANK".toList, FlavorMySQL80),
   ("RECURSIVE".toList, FlavorMySQL80),
   ("ROW_NUMBER".toList, FlavorMySQL80),
   ("SYSTEM".toList, FlavorMySQL80),
   ("WINDOW".toList, FlavorMySQL80)]

/-- The map `mariadbKeywordToFlavor` (lines 44-54), as the list of its
entries. -/
def mariadbKeywordToFlavor : List (List Char × Flavor) :=
  [("DO_DOMAIN_IDS".toList, FlavorMariaDB101),
   ("IGNORE_DOMAIN_IDS".toList, FlavorMariaDB101),
   ("REF_SYSTEM_ID".toList, FlavorMariaDB101),
   ("OVER".toList, FlavorMariaDB102),
   ("RECURSIVE".toList, FlavorMariaDB102),
   ("ROWS".toList, FlavorMariaDB102),
   ("WINDOW".toList, FlavorMariaDB102),
   ("EXCEPT".toList, FlavorMariaDB103),
   ("INTERSECT".toList, FlavorMariaDB103)]

/-- `generateMessage` (lines 66-71). -/
def generateMessage (field fieldName table flavorString : List Char) : List Char :=
  field ++ " ".toList ++ fieldName ++ " of ".toList ++ table
    ++ " table is using a name which is a reserved keyword in ".toList ++ flavorString
    ++ " and above. Consider renaming the ".toList ++ field
    ++ " to a non reserved word or enclose it with double quotes for compatibility with future upgrades.".toList

/-- `tableReservedWordsChecker` (lines 73-125).  `flavorString` is
`Flavor.String`; `lineOffset name stmt` is `FindFirstLineOffset` applied to the
pattern built from the identifier `name` and to the statement. -/
def tableReservedWordsChecker (flavorString : Flavor → List Char)
    (lineOffset : List Char → List Char → Int)
    (table : Table) (createStatement : List Char)
    (keywordToFlavor : List (List Char × Flavor)) : List Note :=
  let results : List Note := []
  let results :=
    match keywordToFlavor.lookup table.Name with
    | some flavor =>
      results ++ [{ LineOffset := lineOffset table.Name createStatement
                    Summary := "Table using a reserved keyword".toList
                    Message := "Table ".toList ++ table.Name
                      ++ " is using a name which is a reserved keyword in ".toList
                      ++ flavorString flavor
                      ++ " and above. Consider renaming the Table to a non reserved word or enclose it with double quotes for compatibility with future upgrades.".toList }]
    | none => results
  let results := table.Columns.foldl (fun results col =>
    match keywordToFlavor.lookup col.Name with
    | some flavor =>
      results ++ [{ LineOffset := lineOffset col.Name createStatement
                    Summary := "Column using a reserved keyword".toList
                    Message := generateMessage "Column".toList col.Name table.Name
                      (flavorString flavor) }]
    | none => results) results
  let results := table.ForeignKeys.foldl (fun results fk =>
    match keywordToFlavor.lookup fk.Name with
    | some flavor =>
      results ++ [{ LineOffset := lineOffset fk.Name createStatement
                    Summary := "Foreign Key using a reserved keyword".toList
                    Message := generateMessage "Foreign Key".toList fk.Name table.Name
                      (flavorString flavor) }]
    | none => results) results
  let results := table.SecondaryIndexes.foldl (fun results idx =>
    match keywordToFlavor.lookup idx.Name with
    | some flavor =>
      results ++ [{ LineOffset := lineOffset idx.Name createStatement
                    Summary := "Index using a reserved keyword".toList
                    Message := generateMessage "Index".toList idx.Name table.Name
                      (flavorString flavor) }]
    | none => results) results
  results

/-- `routineReservedWordsChecker` (lines 127-140). -/
def routineReservedWordsChecker (flavorString : Flavor → List Char)
    (lineOffset : List Char → List Char → Int)
    (routine : Routine) (createStatement : List Char)
    (keywordToFlavor : List (List Char × Flavor)) : List Note :=
  let results : List Note := []
  match keywordToFlavor.lookup routine.Name with
  | some flavor =>
    results ++ [{ LineOffset := lineOffset routine.Name createStatement
                  Summary := "Routine using a reserved keyword".toList
                  Message := "Routine ".toList ++ routine.Name
                    ++ " is using a name which is a reserved keyword in ".toList
                    ++ flavorString flavor
                    ++ " and above. Consider renaming the Routine to a non reserved word or enclose it with double quotes for compatibility with future upgrades.".toList }]
  | none => results

/-- `reservedWordsChecker` (lines 142-160); the schema argument, which the
function ignores, is left out. -/
def reservedWordsChecker (flavorString : Flavor → List Char)
    (lineOffset : List Char → List Char → Int)
    (object : Object) (createStatement : List Char) (opts : Options) : List Note :=
  if opts.Flavor.Vendor = VendorMySQL ∨ opts.Flavor.Vendor = VendorPercona then
    match object with
    | .table table =>
      tableReservedWordsChecker flavorString lineOffset table createStatement mysqlKeywordToFlavor
    | .routine routine =>
      routineReservedWordsChecker flavorString lineOffset routine createStatement
        mysqlKeywordToFlavor
    | .other => []
  else if opts.Flavor.Vendor = VendorMariaDB then
    match object with
    | .table table =>
      tableReservedWordsChecker flavorString lineOffset table createStatement
        mariadbKeywordToFlavor
    | .routine routine =>
      routineReservedWordsChecker flavorString lineOffset routine createStatement
        mariadbKeywordToFlavor
    | .other => []
  else
    []

/-! ## The vocabulary of the specification for the lint rule -/

/-- The keyword table of a vendor: the MySQL table for MySQL and Percona, the
MariaDB table for MariaDB, none for any other vendor. -/
def keywordTable (v : Vendor) : Option (List (List Char × Flavor)) :=
  if v = VendorMySQL ∨ v = VendorPercona then some mysqlKeywordToFlavor
  else if v = VendorMariaDB then some mariadbKeywordToFlavor
  else none

/-- The kinds of identifier of a table. -/
inductive IdentKind where
  | Table
  | Column
  | ForeignKey
  | Index
deriving DecidableEq

/-- The identifiers of a table in the order table name, columns, foreign keys,
secondary indexes, each group in its stored order. -/
def identifiers (t : Table) : List (IdentKind × List Char) :=
  (IdentKind.Table, t.Name) :: (t.Columns.map (fun c => (IdentKind.Column, c.Name))
    ++ t.ForeignKeys.map (fun f => (IdentKind.ForeignKey, f.Name))
    ++ t.SecondaryIndexes.map (fun i => (IdentKind.Index, i.Name)))

/-- Whether a name is, rune for rune, a key of a keyword table. -/
def isKeyword (kw : List (List Char × Flavor)) (name : List Char) : Bool :=
  (kw.map Prod.fst).contains name

/-- The note on an identifier of a given kind that is a reserved word since
`flavor`. -/
def noteFor (flavorString : Flavor → List Char) (lineOffset : List Char → List Char → Int)
    (tableName createStatement : List Char) (kind : IdentKind) (name : List Char)
    (flavor : Flavor) : Note :=
  match kind with
  | .Table =>
    { LineOffset := lineOffset name createStatement
      Summary := "Table using a reserved keyword".toList
      Message := "Table ".toList ++ name
        ++ " is using a name which is a reserved keyword in ".toList ++ flavorString flavor
        ++ " and above. Consider renaming the Table to a non reserved word or enclose it with double quotes for compatibility with future upgrades.".toList }
  | .Column =>
    { LineOffset := lineOffset name createStatement
      Summary := "Column using a reserved keyword".toList
      Message := generateMessage "Column".toList name tableName (flavorString flavor) }
  | .ForeignKey =>
    { LineOffset := lineOffset name createStatement
      Summary := "Foreign Key using a reserved keyword".toList
      Message := generateMessage "Foreign Key".toList name tableName (flavorString flavor) }
  | .Index =>
    { LineOffset := lineOffset name createStatement
      Summary := "Index using a reserved keyword".toList
      Message := generateMessage "Index".toList name tableName (flavorString flavor) }

end Linter

namespace Mybase

/-! ## Lemmas on the string primitives -/

theorem SplitN2_eq (arg : List Char) :
    SplitN2 arg = if '=' ∈ arg then [keyPart arg, valuePart arg] else [keyPart arg] := by
  unfold SplitN2 keyPart valuePart
  rw [List.span_eq_take_drop]
  by_cases h : '=' ∈ arg
  · rw [if_pos h]
    cases hd : arg.dropWhile (fun c => c != '=') with
    | nil =>
      exfalso
      rw [List.dropWhile_eq_nil_iff] at hd
      simpa using hd '=' h
    | cons a v => simp
  · rw [if_neg h]
    have hd : arg.dropWhile (fun c => c != '=') = [] := by
      rw [List.dropWhile_eq_nil_iff]
      intro c hc
      have : c ≠ '=' := fun e => h (e ▸ hc)
      simpa using this
    rw [hd]

theorem keyPart_append_eq (k v : List Char) (hk : '=' ∉ k) :
    keyPart (k ++ '=' :: v) = k := by
  unfold keyPart
  induction k with
  | nil => simp
  | cons a k ih =>
    have ha : a ≠ '=' := fun e => hk (by simp [e])
    have hk2 : '=' ∉ k := fun e => hk (by simp [e])
    simp [List.takeWhile_cons, ha, ih hk2]

theorem valuePart_append_eq (k v : List Char) (hk : '=' ∉ k) :
    valuePart (k ++ '=' :: v) = v := by
  unfold valuePart
  induction k with
  | nil => simp
  | cons a k ih =>
    have ha : a ≠ '=' := fun e => hk (by simp [e])
    have hk2 : '=' ∉ k := fun e => hk (by simp [e])
    simp [List.dropWhile_cons, ha, ih hk2]

theorem keyPart_of_not_mem (arg : List Char) (h : '=' ∉ arg) : keyPart arg = arg := by
  unfold keyPart
  rw [List.takeWhile_eq_self_iff]
  intro c hc
  have : c ≠ '=' := fun e => h (e ▸ hc)
  simpa using this

/-- The whole function in terms of the vocabulary of the specification. -/
theorem NormalizeOptionToken_eq (tbl : Char → Char) (arg : List Char)
    (hk : TrimFunc (keyPart arg) IsSpace ≠ []) :
    NormalizeOptionToken tbl arg =
      (stripNeg (stripLoose (normalizedKey tbl arg)),
       if '=' ∈ arg then
         if isNegated (stripLoose (normalizedKey tbl arg)) then
           if isFalsey tbl (TrimFunc (valuePart arg) IsSpace) then "1".toList else []
         else TrimFunc (valuePart arg) IsSpace
       else [],
       decide ('=' ∈ arg) || isNegated (stripLoose (normalizedKey tbl arg)),
       HasPrefix (normalizedKey tbl arg) "loose-".toList) := by
  unfold NormalizeOptionToken
  rw [SplitN2_eq]
  by_cases he : '=' ∈ arg
  · simp only [he, if_true, List.headD_cons, List.tail_cons, hk, if_false]
    unfold stripNeg stripLoose isNegated isFalsey normalizedKey
    split_ifs <;> simp_all
  · simp only [he, if_false, List.headD_cons, List.tail_cons, hk]
    unfold stripNeg stripLoose isNegated normalizedKey
    split_ifs <;> simp_all

theorem NormalizeOptionToken_zero (tbl : Char → Char) (arg : List Char)
    (hk : TrimFunc (keyPart arg) IsSpace = []) :
    NormalizeOptionToken tbl arg = ([], [], false, false) := by
  unfold NormalizeOptionToken
  rw [SplitN2_eq]
  by_cases he : '=' ∈ arg <;> simp [he, hk]

theorem TrimFunc_ne_nil_of_normalizedKey (tbl : Char → Char) (arg : List Char)
    (h : normalizedKey tbl arg ≠ []) : TrimFunc (keyPart arg) IsSpace ≠ [] := by
  intro e
  apply h
  simp [normalizedKey, e, ToLower, Replace]

theorem isNegated_nil : isNegated [] = false := by rfl

theorem stripLoose_nil : stripLoose [] = [] := by rfl

theorem TrimFunc_ne_nil_of_isNegated (tbl : Char → Char) (arg : List Char)
    (h : isNegated (stripLoose (normalizedKey tbl arg)) = true) :
    TrimFunc (keyPart arg) IsSpace ≠ [] := by
  apply TrimFunc_ne_nil_of_normalizedKey tbl
  intro e
  rw [e, stripLoose_nil, isNegated_nil] at h
  exact Bool.false_ne_true h

theorem stripNeg_of_isNegated (k : List Char) (h : isNegated k = true) :
    stripNeg k = if HasPrefix k "skip-".toList then k.drop 5 else k.drop 8 := by
  unfold stripNeg
  unfold isNegated at h
  split_ifs <;> simp_all

theorem stripLoose_of_not (k : List Char) (h : HasPrefix k "loose-".toList = false) :
    stripLoose k = k := by
  unfold stripLoose; rw [h]; simp

theorem stripLoose_of_pos (k : List Char) (h : HasPrefix k "loose-".toList = true) :
    stripLoose k = k.drop 6 := by
  unfold stripLoose; rw [h]; simp

theorem stripNeg_of_not (k : List Char) (hskip : HasPrefix k "skip-".toList = false)
    (hdis : HasPrefix k "disable-".toList = false)
    (hen : HasPrefix k "enable-".toList = false) : stripNeg k = k := by
  unfold stripNeg; rw [hskip, hdis, hen]; simp

theorem isNegated_of_not (k : List Char) (hskip : HasPrefix k "skip-".toList = false)
    (hdis : HasPrefix k "disable-".toList = false) : isNegated k = false := by
  unfold isNegated; rw [hskip, hdis]; rfl

/-! ## Claims on `NormalizeOptionToken` -/

/-- C1: a negated token that carries a value.  When the normalized key, after
an optional `loose-`, starts with `skip-` or `disable-` and the raw token
contains `=`, the result has `hasValue = true`, and its value is `"1"` when the
trimmed value part is falsey (lower-cased it is `off`, `false` or `0`) and `""`
for every other value part; the key is the normalized key without `loose-` and
without the negation prefix. -/
theorem NormalizeOptionToken_negated_value (tbl : Char → Char) (arg : List Char)
    (hneg : isNegated (stripLoose (normalizedKey tbl arg)) = true)
    (heq : '=' ∈ arg) :
    NormalizeOptionToken tbl arg =
      (if HasPrefix (stripLoose (normalizedKey tbl arg)) "skip-".toList
         then (stripLoose (normalizedKey tbl arg)).drop 5
         else (stripLoose (normalizedKey tbl arg)).drop 8,
       if isFalsey tbl (TrimFunc (valuePart arg) IsSpace) then "1".toList else "".toList,
       true,
       HasPrefix (normalizedKey tbl arg) "loose-".toList) := by
  rw [NormalizeOptionToken_eq tbl arg (TrimFunc_ne_nil_of_isNegated tbl arg hneg),
    stripNeg_of_isNegated _ hneg]
  simp [heq, hneg]

/-- C1, at the inputs the claim names: `Skip_Foo=Off` gives
`("foo", "1", true, false)` and `skip-x=1` gives `("x", "", true, false)`,
whatever the case table. -/
theorem NormalizeOptionToken_negated_value_witness :
    (∀ tbl : Char → Char,
      NormalizeOptionToken tbl "Skip_Foo=Off".toList = ("foo".toList, "1".toList, true, false))
    ∧ (∀ tbl : Char → Char,
      NormalizeOptionToken tbl "skip-x=1".toList = ("x".toList, "".toList, true, false))
    ∧ (∀ tbl : Char → Char,
      NormalizeOptionToken tbl "loose-disable-x = FALSE ".toList
        = ("x".toList, "1".toList, true, true)) :=
  ⟨fun tbl =>
     (NormalizeOptionToken_negated_value tbl "Skip_Foo=Off".toList rfl (by decide)).trans rfl,
   fun tbl =>
     (NormalizeOptionToken_negated_value tbl "skip-x=1".toList rfl (by decide)).trans rfl,
   fun tbl =>
     (NormalizeOptionToken_negated_value tbl "loose-disable-x = FALSE ".toList rfl
       (by decide)).trans rfl⟩

/-- C2: a negated token without a value.  When the raw token has no `=` and
its normalized key, after an optional `loose-`, starts with `skip-` or
`disable-`, the result is the key with that prefix removed, the value `""` and
`hasValue = true`. -/
theorem NormalizeOptionToken_negated_bare (tbl : Char → Char) (arg : List Char)
    (hneg : isNegated (stripLoose (normalizedKey tbl arg)) = true)
    (hno : '=' ∉ arg) :
    NormalizeOptionToken tbl arg =
      (if HasPrefix (stripLoose (normalizedKey tbl arg)) "skip-".toList
         then (stripLoose (normalizedKey tbl arg)).drop 5
         else (stripLoose (normalizedKey tbl arg)).drop 8,
       "".toList,
       true,
       HasPrefix (normalizedKey tbl arg) "loose-".toList) := by
  rw [NormalizeOptionToken_eq tbl arg (TrimFunc_ne_nil_of_isNegated tbl arg hneg),
    stripNeg_of_isNegated _ hneg]
  simp [hno, hneg]

/-- C2, at `skip-x`, `Disable_Foo` and `loose-skip-x`. -/
theorem NormalizeOptionToken_negated_bare_witness :
    (∀ tbl : Char → Char,
      NormalizeOptionToken tbl "skip-x".toList = ("x".toList, "".toList, true, false))
    ∧ (∀ tbl : Char → Char,
      NormalizeOptionToken tbl "Disable_Foo".toList = ("foo".toList, "".toList, true, false))
    ∧ (∀ tbl : Char → Char,
      NormalizeOptionToken tbl "loose-skip-x".toList = ("x".toList, "".toList, true, true)) :=
  ⟨fun tbl =>
     (NormalizeOptionToken_negated_bare tbl "skip-x".toList rfl (by decide)).trans rfl,
   fun tbl =>
     (NormalizeOptionToken_negated_bare tbl "Disable_Foo".toList rfl (by decide)).trans rfl,
   fun tbl =>
     (NormalizeOptionToken_negated_bare tbl "loose-skip-x".toList rfl (by decide)).trans rfl⟩

theorem TrimFunc_eq_nil_of_all (s : List Char) (f : Char → Bool)
    (h : ∀ c ∈ s, f c = true) : TrimFunc s f = [] := by
  unfold TrimFunc
  have : s.dropWhile f = [] := by
    rw [List.dropWhile_eq_nil_iff]; exact h
  rw [this]; rfl

/-- C3: an empty or all-whitespace key part.  When every rune before the first
`=` of the raw token is whitespace (in particular when there is none), the
result is the all-zero tuple; the function is total, so it does not fail. -/
theorem NormalizeOptionToken_blank_key (tbl : Char → Char) (arg : List Char)
    (h : ∀ c ∈ keyPart arg, IsSpace c = true) :
    NormalizeOptionToken tbl arg = ("".toList, "".toList, false, false) :=
  NormalizeOptionToken_zero tbl arg (TrimFunc_eq_nil_of_all _ _ h)

/-- C3, at the empty token, at three blanks and at `  =v`. -/
theorem NormalizeOptionToken_blank_key_witness :
    (∀ tbl : Char → Char,
      NormalizeOptionToken tbl "".toList = ("".toList, "".toList, false, false))
    ∧ (∀ tbl : Char → Char,
      NormalizeOptionToken tbl "   ".toList = ("".toList, "".toList, false, false))
    ∧ (∀ tbl : Char → Char,
      NormalizeOptionToken tbl "  =v".toList = ("".toList, "".toList, false, false)) :=
  ⟨fun tbl => NormalizeOptionToken_blank_key tbl _ (by decide),
   fun tbl => NormalizeOptionToken_blank_key tbl _ (by decide),
   fun tbl => NormalizeOptionToken_blank_key tbl _ (by decide)⟩

theorem HasPrefix_eq_append (k pre : List Char) (h : HasPrefix k pre = true) :
    k = pre ++ k.drop pre.length := by
  unfold HasPrefix at h
  rw [List.isPrefixOf_iff_prefix, List.prefix_iff_eq_append] at h
  exact h.symm

/-- C4, as stated, fails: the tokens `loose-` and `skip-` have an empty
returned key, yet the result is not the all-zero tuple (`loose` is set for the
first, `hasValue` for the second). -/
theorem NormalizeOptionToken_empty_key_counterexample :
    (∀ tbl : Char → Char,
      (NormalizeOptionToken tbl "loose-".toList).1 = []
      ∧ NormalizeOptionToken tbl "loose-".toList = ("".toList, "".toList, false, true)
      ∧ NormalizeOptionToken tbl "loose-".toList ≠ ("".toList, "".toList, false, false))
    ∧ (∀ tbl : Char → Char,
      (NormalizeOptionToken tbl "skip-".toList).1 = []
      ∧ NormalizeOptionToken tbl "skip-".toList = ("".toList, "".toList, true, false)
      ∧ NormalizeOptionToken tbl "skip-".toList ≠ ("".toList, "".toList, false, false)) :=
  ⟨fun tbl => ⟨rfl, rfl,
     (show NormalizeOptionToken tbl "loose-".toList = ("".toList, "".toList, false, true)
       from rfl).trans_ne (by decide)⟩,
   fun tbl => ⟨rfl, rfl,
     (show NormalizeOptionToken tbl "skip-".toList = ("".toList, "".toList, true, false)
       from rfl).trans_ne (by decide)⟩⟩

/-- C4, amended: when the returned key is empty and the normalized key part is
not made of recognised prefixes only (it is none of `loose-`, `skip-`,
`disable-`, `enable-`, `loose-skip-`, `loose-disable-`, `loose-enable-`), the
whole result is the all-zero tuple. -/
theorem NormalizeOptionToken_empty_key (tbl : Char → Char) (arg : List Char)
    (hkey : (NormalizeOptionToken tbl arg).1 = [])
    (hnk : normalizedKey tbl arg ∉
      ["loose-".toList, "skip-".toList, "disable-".toList, "enable-".toList,
       "loose-skip-".toList, "loose-disable-".toList, "loose-enable-".toList]) :
    NormalizeOptionToken tbl arg = ("".toList, "".toList, false, false) := by
  by_cases hk : TrimFunc (keyPart arg) IsSpace = []
  · exact NormalizeOptionToken_zero tbl arg hk
  · exfalso
    apply hnk
    rw [NormalizeOptionToken_eq tbl arg hk] at hkey
    simp only at hkey
    have l5 : "skip-".toList.length = 5 := rfl
    have l6 : "loose-".toList.length = 6 := rfl
    have l7 : "enable-".toList.length = 7 := rfl
    have l8 : "disable-".toList.length = 8 := rfl
    unfold stripNeg stripLoose at hkey
    split_ifs at hkey with h1 h2 h3 h4 h5 h6 h7
    · have e1 := HasPrefix_eq_append _ _ h1
      have e2 := HasPrefix_eq_append _ _ h2
      rw [l5, hkey] at e2
      rw [l6, e2] at e1
      rw [e1]; decide
    · have e1 := HasPrefix_eq_append _ _ h1
      have e2 := HasPrefix_eq_append _ _ h3
      rw [l8, hkey] at e2
      rw [l6, e2] at e1
      rw [e1]; decide
    · have e1 := HasPrefix_eq_append _ _ h1
      have e2 := HasPrefix_eq_append _ _ h4
      rw [l7, hkey] at e2
      rw [l6, e2] at e1
      rw [e1]; decide
    · have e1 := HasPrefix_eq_append _ _ h1
      rw [l6, hkey] at e1
      rw [e1]; decide
    · have e2 := HasPrefix_eq_append _ _ h5
      rw [l5, hkey] at e2
      rw [e2]; decide
    · have e2 := HasPrefix_eq_append _ _ h6
      rw [l8, hkey] at e2
      rw [e2]; decide
    · have e2 := HasPrefix_eq_append _ _ h7
      rw [l7, hkey] at e2
      rw [e2]; decide
    · exfalso
      apply hk
      by_contra hne
      have : normalizedKey tbl arg ≠ [] := by
        simpa [normalizedKey, ToLower, Replace] using hne
      exact this hkey

/-- C4 amended, at `  =v` (blank key part) and at the empty token. -/
theorem NormalizeOptionToken_empty_key_witness :
    (∀ tbl : Char → Char,
      NormalizeOptionToken tbl "  =v".toList = ("".toList, "".toList, false, false))
    ∧ (∀ tbl : Char → Char,
      NormalizeOptionToken tbl "".toList = ("".toList, "".toList, false, false)) :=
  ⟨fun tbl => NormalizeOptionToken_empty_key tbl "  =v".toList rfl
     (by rw [show normalizedKey tbl "  =v".toList = [] from rfl]; decide),
   fun tbl => NormalizeOptionToken_empty_key tbl "".toList rfl
     (by rw [show normalizedKey tbl "".toList = [] from rfl]; decide)⟩

/-- C5: a plain `k=v` token.  When `k` has no `=` (so the `=` written is the
first one) and the trimmed, lower-cased, hyphenated `k` is non-empty and starts
with none of `loose-`, `skip-`, `disable-`, `enable-`, the result is that
normalized `k`, the value `v` with surrounding whitespace trimmed (its case
and its later `=` kept), `hasValue = true` and `loose = false`. -/
theorem NormalizeOptionToken_plain_key_value (tbl : Char → Char) (k v : List Char)
    (hk : '=' ∉ k)
    (hne : Replace (ToLower tbl (TrimFunc k IsSpace)) '_' '-' ≠ [])
    (hloose : HasPrefix (Replace (ToLower tbl (TrimFunc k IsSpace)) '_' '-') "loose-".toList = false)
    (hskip : HasPrefix (Replace (ToLower tbl (TrimFunc k IsSpace)) '_' '-') "skip-".toList = false)
    (hdis : HasPrefix (Replace (ToLower tbl (TrimFunc k IsSpace)) '_' '-') "disable-".toList = false)
    (hen : HasPrefix (Replace (ToLower tbl (TrimFunc k IsSpace)) '_' '-') "enable-".toList = false) :
    NormalizeOptionToken tbl (k ++ '=' :: v) =
      (Replace (ToLower tbl (TrimFunc k IsSpace)) '_' '-', TrimFunc v IsSpace, true, false) := by
  have hnk : normalizedKey tbl (k ++ '=' :: v)
      = Replace (ToLower tbl (TrimFunc k IsSpace)) '_' '-' := by
    simp [normalizedKey, keyPart_append_eq k v hk]
  have hne2 : TrimFunc (keyPart (k ++ '=' :: v)) IsSpace ≠ [] :=
    TrimFunc_ne_nil_of_normalizedKey tbl _ (hnk ▸ hne)
  rw [NormalizeOptionToken_eq tbl _ hne2, hnk, valuePart_append_eq k v hk]
  rw [stripLoose_of_not _ hloose, stripNeg_of_not _ hskip hdis hen,
    isNegated_of_not _ hskip hdis, hloose]
  simp

/-- C5, at `Foo_Bar=baz`, and at a token with blanks, upper case in the value
and a second `=`. -/
theorem NormalizeOptionToken_plain_key_value_witness :
    (∀ tbl : Char → Char,
      NormalizeOptionToken tbl "Foo_Bar=baz".toList
        = ("foo-bar".toList, "baz".toList, true, false))
    ∧ (∀ tbl : Char → Char,
      NormalizeOptionToken tbl " Foo_Bar = Baz=Q ".toList
        = ("foo-bar".toList, "Baz=Q".toList, true, false)) :=
  ⟨fun tbl => NormalizeOptionToken_plain_key_value tbl "Foo_Bar".toList "baz".toList
     (by decide) (List.cons_ne_nil _ _) rfl rfl rfl rfl,
   fun tbl => NormalizeOptionToken_plain_key_value tbl " Foo_Bar ".toList " Baz=Q ".toList
     (by decide) (List.cons_ne_nil _ _) rfl rfl rfl rfl⟩

/-! ## Trimming and prefixes -/

theorem rdropWhile_append_of_ne_nil (f : Char → Bool) (a b : List Char)
    (h : b.rdropWhile f ≠ []) : (a ++ b).rdropWhile f = a ++ b.rdropWhile f := by
  unfold List.rdropWhile at h ⊢
  rw [List.reverse_append, List.dropWhile_append]
  have hne : (List.dropWhile f b.reverse).isEmpty = false := by
    cases hd : List.dropWhile f b.reverse with
    | nil => rw [hd] at h; simp at h
    | cons x xs => rfl
  rw [hne]
  simp

theorem dropWhile_eq_self_of_TrimFunc (f : Char → Bool) (r : List Char)
    (h : TrimFunc r f = r) : r.dropWhile f = r := by
  unfold TrimFunc at h
  apply (List.dropWhile_suffix f).eq_of_length_le
  have h1 : ((r.dropWhile f).rdropWhile f).length ≤ (r.dropWhile f).length :=
    (List.rdropWhile_prefix f _).length_le
  rw [h] at h1
  exact h1

theorem rdropWhile_eq_self_of_TrimFunc (f : Char → Bool) (r : List Char)
    (h : TrimFunc r f = r) : r.rdropWhile f = r := by
  have hd := dropWhile_eq_self_of_TrimFunc f r h
  unfold TrimFunc at h
  rw [hd] at h
  exact h

/-- Trimming passes through a prefix that itself starts and ends with a rune
outside `f`, when what follows has no leading rune in `f` and does not trim
to the empty string. -/
theorem TrimFunc_append (f : Char → Bool) (pre s : List Char)
    (hp : pre.dropWhile f = pre) (hpne : pre ≠ [])
    (hs : s.dropWhile f = s) (hne : TrimFunc s f ≠ []) :
    TrimFunc (pre ++ s) f = pre ++ TrimFunc s f := by
  unfold TrimFunc at hne ⊢
  rw [hs] at hne ⊢
  have hd : (pre ++ s).dropWhile f = pre ++ s := by
    rw [List.dropWhile_append, hp]
    cases pre with
    | nil => exact absurd rfl hpne
    | cons a l => rfl
  rw [hd, rdropWhile_append_of_ne_nil f pre s hne]

/-- A prefix that is its own trim, followed by a string that is its own trim,
is its own trim. -/
theorem TrimFunc_append_self (f : Char → Bool) (pre r : List Char)
    (hp : TrimFunc pre f = pre) (hpne : pre ≠ []) (hr : TrimFunc r f = r) :
    TrimFunc (pre ++ r) f = pre ++ r := by
  by_cases hrn : r = []
  · subst hrn; simpa using hp
  · have h := TrimFunc_append f pre r (dropWhile_eq_self_of_TrimFunc f pre hp) hpne
      (dropWhile_eq_self_of_TrimFunc f r hr) (by rw [hr]; exact hrn)
    rw [h, hr]

theorem ToLower_append (tbl : Char → Char) (a b : List Char) :
    ToLower tbl (a ++ b) = ToLower tbl a ++ ToLower tbl b := by
  simp [ToLower]

theorem Replace_append (a b : List Char) (old new : Char) :
    Replace (a ++ b) old new = Replace a old new ++ Replace b old new := by
  simp [Replace]

theorem Replace_of_not_mem (r : List Char) (old new : Char) (h : old ∉ r) :
    Replace r old new = r := by
  unfold Replace
  induction r with
  | nil => rfl
  | cons a r ih =>
    have ha : a ≠ old := fun e => h (by simp [e])
    have hr : old ∉ r := fun e => h (by simp [e])
    simp [ha, ih hr]

theorem keyPart_append_left (pre t : List Char) (hp : '=' ∉ pre) :
    keyPart (pre ++ t) = pre ++ keyPart t := by
  unfold keyPart
  rw [List.takeWhile_append_of_pos]
  intro c hc
  have : c ≠ '=' := fun e => hp (e ▸ hc)
  simpa using this

theorem valuePart_append_left (pre t : List Char) (hp : '=' ∉ pre) :
    valuePart (pre ++ t) = valuePart t := by
  unfold valuePart
  rw [List.dropWhile_append_of_pos]
  intro c hc
  have : c ≠ '=' := fun e => hp (e ▸ hc)
  simpa using this

theorem keyPart_dropWhile (t : List Char)
    (hlead : ∀ c, t.head? = some c → IsSpace c = false) :
    (keyPart t).dropWhile IsSpace = keyPart t := by
  cases t with
  | nil => rfl
  | cons a t =>
    have ha : IsSpace a = false := hlead a rfl
    unfold keyPart
    by_cases he : a = '='
    · subst he; rfl
    · simp [List.takeWhile_cons, List.dropWhile_cons, he, ha]

theorem normalizedKey_loose_append (tbl : Char → Char) (t : List Char)
    (hlead : ∀ c, t.head? = some c → IsSpace c = false)
    (hne : normalizedKey tbl t ≠ []) :
    normalizedKey tbl ("loose-".toList ++ t) = "loose-".toList ++ normalizedKey tbl t := by
  have hk := TrimFunc_ne_nil_of_normalizedKey tbl t hne
  unfold normalizedKey
  rw [keyPart_append_left _ _ (by decide),
    TrimFunc_append IsSpace _ _ rfl (by decide) (keyPart_dropWhile t hlead) hk,
    ToLower_append, Replace_append]
  rfl

theorem loose_false_of_not (tbl : Char → Char) (u : List Char)
    (h : HasPrefix (normalizedKey tbl u) "loose-".toList = false) :
    (NormalizeOptionToken tbl u).2.2.2 = false := by
  by_cases hk : TrimFunc (keyPart u) IsSpace = []
  · rw [NormalizeOptionToken_zero tbl u hk]
  · rw [NormalizeOptionToken_eq tbl u hk]
    exact h

/-- C6: the `loose-` prefix.  For a token `t` without leading whitespace whose
normalized key is non-empty and does not itself start with `loose-`, the token
`loose-` followed by `t` yields the key, value and `hasValue` of `t`, with
`loose = true`, while `t` itself yields `loose = false`; and `loose` is false
for every token whose normalized key does not start with `loose-`. -/
theorem NormalizeOptionToken_loose (tbl : Char → Char) (t : List Char)
    (hlead : ∀ c, t.head? = some c → IsSpace c = false)
    (hne : normalizedKey tbl t ≠ [])
    (hnl : HasPrefix (normalizedKey tbl t) "loose-".toList = false) :
    NormalizeOptionToken tbl ("loose-".toList ++ t) =
        ((NormalizeOptionToken tbl t).1, (NormalizeOptionToken tbl t).2.1,
         (NormalizeOptionToken tbl t).2.2.1, true)
    ∧ (NormalizeOptionToken tbl t).2.2.2 = false
    ∧ ∀ u : List Char, HasPrefix (normalizedKey tbl u) "loose-".toList = false →
        (NormalizeOptionToken tbl u).2.2.2 = false := by
  refine ⟨?_, loose_false_of_not tbl t hnl, fun u hu => loose_false_of_not tbl u hu⟩
  have hnk := normalizedKey_loose_append tbl t hlead hne
  have hk := TrimFunc_ne_nil_of_normalizedKey tbl t hne
  have hk2 : TrimFunc (keyPart ("loose-".toList ++ t)) IsSpace ≠ [] :=
    TrimFunc_ne_nil_of_normalizedKey tbl _ (by rw [hnk]; exact List.cons_ne_nil _ _)
  have hpre : HasPrefix ("loose-".toList ++ normalizedKey tbl t) "loose-".toList = true := by
    simp [HasPrefix]
  have hdrop : List.drop 6 ("loose-".toList ++ normalizedKey tbl t) = normalizedKey tbl t :=
    rfl
  rw [NormalizeOptionToken_eq tbl _ hk2, NormalizeOptionToken_eq tbl t hk, hnk,
    stripLoose_of_pos _ hpre, stripLoose_of_not _ hnl, valuePart_append_left _ _ (by decide),
    hpre, hdrop]
  by_cases he : '=' ∈ t
  · have he2 : '=' ∈ "loose-".toList ++ t := List.mem_append_right _ he
    simp only [he, he2, if_true]
  · have he2 : '=' ∉ "loose-".toList ++ t := by
      intro h
      rcases List.mem_append.mp h with h | h
      · exact absurd h (by decide)
      · exact he h
    simp only [he, he2, if_false]

/-- C6, at `loose-x`, which gives `("x", "", false, true)`, and at
`loose-Skip_Foo=Off`. -/
theorem NormalizeOptionToken_loose_witness :
    (∀ tbl : Char → Char,
      NormalizeOptionToken tbl "loose-x".toList = ("x".toList, "".toList, false, true))
    ∧ (∀ tbl : Char → Char,
      NormalizeOptionToken tbl "loose-Skip_Foo=Off".toList
        = ("foo".toList, "1".toList, true, true)) :=
  ⟨fun tbl => (NormalizeOptionToken_loose tbl "x".toList (by decide)
      (List.cons_ne_nil _ _) rfl).1,
   fun tbl => (NormalizeOptionToken_loose tbl "Skip_Foo=Off".toList (by decide)
      (List.cons_ne_nil _ _) rfl).1⟩

theorem normalizedKey_append_self (tbl : Char → Char) (pre r : List Char)
    (hpe : '=' ∉ pre) (hpt : TrimFunc pre IsSpace = pre) (hpne : pre ≠ [])
    (hpl : ToLower tbl pre = pre) (hph : '_' ∉ pre)
    (hlow : ToLower tbl r = r) (hhy : '_' ∉ r) (heq : '=' ∉ r)
    (htrim : TrimFunc r IsSpace = r) :
    '=' ∉ pre ++ r ∧ normalizedKey tbl (pre ++ r) = pre ++ r := by
  have hno : '=' ∉ pre ++ r := by
    intro h
    rcases List.mem_append.mp h with h | h
    · exact hpe h
    · exact heq h
  refine ⟨hno, ?_⟩
  unfold normalizedKey
  rw [keyPart_of_not_mem _ hno, TrimFunc_append_self IsSpace pre r hpt hpne htrim,
    ToLower_append, hpl, hlow, Replace_append, Replace_of_not_mem _ _ _ hph,
    Replace_of_not_mem _ _ _ hhy]

theorem NormalizeOptionToken_of_normalizedKey (tbl : Char → Char) (arg : List Char)
    (hne : normalizedKey tbl arg ≠ []) (hno : '=' ∉ arg) :
    NormalizeOptionToken tbl arg =
      (stripNeg (stripLoose (normalizedKey tbl arg)), [],
       isNegated (stripLoose (normalizedKey tbl arg)),
       HasPrefix (normalizedKey tbl arg) "loose-".toList) := by
  rw [NormalizeOptionToken_eq tbl arg (TrimFunc_ne_nil_of_normalizedKey tbl arg hne)]
  simp [hno]

/-- C7: at most one of `skip-`, `disable-`, `enable-` is stripped, after at
most one leading `loose-`.  For every remainder `r` that is lower-case,
hyphenated, without `=` and without surrounding whitespace, whatever `r`
itself begins with, the key returned for `skip-r`, `disable-r` and `enable-r`
is exactly `r`, with `loose = false` (so a `loose-` after such a prefix is not
treated as loose) and `hasValue` set by the negation prefixes only; the same
holds behind one leading `loose-`, with `loose = true`. -/
theorem NormalizeOptionToken_strips_once (tbl : Char → Char) (r : List Char)
    (hlow : ToLower tbl r = r) (hhy : '_' ∉ r) (heq : '=' ∉ r)
    (htrim : TrimFunc r IsSpace = r) :
    NormalizeOptionToken tbl ("skip-".toList ++ r) = (r, "".toList, true, false)
    ∧ NormalizeOptionToken tbl ("disable-".toList ++ r) = (r, "".toList, true, false)
    ∧ NormalizeOptionToken tbl ("enable-".toList ++ r) = (r, "".toList, false, false)
    ∧ NormalizeOptionToken tbl ("loose-skip-".toList ++ r) = (r, "".toList, true, true)
    ∧ NormalizeOptionToken tbl ("loose-disable-".toList ++ r) = (r, "".toList, true, true)
    ∧ NormalizeOptionToken tbl ("loose-enable-".toList ++ r) = (r, "".toList, false, true) := by
  refine ⟨?_, ?_, ?_, ?_, ?_, ?_⟩
  · obtain ⟨hno, hnk⟩ := normalizedKey_append_self tbl "skip-".toList r (by decide) rfl
      (by decide) rfl (by decide) hlow hhy heq htrim
    rw [NormalizeOptionToken_of_normalizedKey tbl _ (by rw [hnk]; exact List.cons_ne_nil _ _) hno,
      hnk]
    simp [stripLoose, stripNeg, isNegated, HasPrefix, List.isPrefixOf_cons₂]
  · obtain ⟨hno, hnk⟩ := normalizedKey_append_self tbl "disable-".toList r (by decide) rfl
      (by decide) rfl (by decide) hlow hhy heq htrim
    rw [NormalizeOptionToken_of_normalizedKey tbl _ (by rw [hnk]; exact List.cons_ne_nil _ _) hno,
      hnk]
    simp [stripLoose, stripNeg, isNegated, HasPrefix, List.isPrefixOf_cons₂]
  · obtain ⟨hno, hnk⟩ := normalizedKey_append_self tbl "enable-".toList r (by decide) rfl
      (by decide) rfl (by decide) hlow hhy heq htrim
    rw [NormalizeOptionToken_of_normalizedKey tbl _ (by rw [hnk]; exact List.cons_ne_nil _ _) hno,
      hnk]
    simp [stripLoose, stripNeg, isNegated, HasPrefix, List.isPrefixOf_cons₂]
  · obtain ⟨hno, hnk⟩ := normalizedKey_append_self tbl "loose-skip-".toList r (by decide) rfl
      (by decide) rfl (by decide) hlow hhy heq htrim
    rw [NormalizeOptionToken_of_normalizedKey tbl _ (by rw [hnk]; exact List.cons_ne_nil _ _) hno,
      hnk]
    simp [stripLoose, stripNeg, isNegated, HasPrefix, List.isPrefixOf_cons₂]
  · obtain ⟨hno, hnk⟩ := normalizedKey_append_self tbl "loose-disable-".toList r (by decide) rfl
      (by decide) rfl (by decide) hlow hhy heq htrim
    rw [NormalizeOptionToken_of_normalizedKey tbl _ (by rw [hnk]; exact List.cons_ne_nil _ _) hno,
      hnk]
    simp [stripLoose, stripNeg, isNegated, HasPrefix, List.isPrefixOf_cons₂]
  · obtain ⟨hno, hnk⟩ := normalizedKey_append_self tbl "loose-enable-".toList r (by decide) rfl
      (by decide) rfl (by decide) hlow hhy heq htrim
    rw [NormalizeOptionToken_of_normalizedKey tbl _ (by rw [hnk]; exact List.cons_ne_nil _ _) hno,
      hnk]
    simp [stripLoose, stripNeg, isNegated, HasPrefix, List.isPrefixOf_cons₂]

/-- C7, at the remainder `loose-skip-x`: `skip-loose-skip-x` gives the key
`loose-skip-x` with `loose = false`, and likewise for `disable-` and
`enable-`. -/
theorem NormalizeOptionToken_strips_once_witness :
    (∀ tbl : Char → Char,
      NormalizeOptionToken tbl "skip-loose-skip-x".toList
        = ("loose-skip-x".toList, "".toList, true, false))
    ∧ (∀ tbl : Char → Char,
      NormalizeOptionToken tbl "disable-loose-skip-x".toList
        = ("loose-skip-x".toList, "".toList, true, false))
    ∧ (∀ tbl : Char → Char,
      NormalizeOptionToken tbl "enable-loose-skip-x".toList
        = ("loose-skip-x".toList, "".toList, false, false)) :=
  ⟨fun tbl => (NormalizeOptionToken_strips_once tbl "loose-skip-x".toList rfl (by decide)
      (by decide) rfl).1,
   fun tbl => (NormalizeOptionToken_strips_once tbl "loose-skip-x".toList rfl (by decide)
      (by decide) rfl).2.1,
   fun tbl => (NormalizeOptionToken_strips_once tbl "loose-skip-x".toList rfl (by decide)
      (by decide) rfl).2.2.1⟩

theorem normalizedKey_append_value (tbl : Char → Char) (k v : List Char) (hk : '=' ∉ k) :
    normalizedKey tbl (k ++ '=' :: v) = normalizedKey tbl k := by
  unfold normalizedKey
  rw [keyPart_append_eq k v hk, keyPart_of_not_mem k hk]

theorem NormalizeOptionToken_of_normalizedKey_value (tbl : Char → Char) (k v : List Char)
    (hk : '=' ∉ k) (hne : normalizedKey tbl k ≠ []) :
    NormalizeOptionToken tbl (k ++ '=' :: v) =
      (stripNeg (stripLoose (normalizedKey tbl k)),
       if isNegated (stripLoose (normalizedKey tbl k)) then
         if isFalsey tbl (TrimFunc v IsSpace) then "1".toList else []
       else TrimFunc v IsSpace,
       true,
       HasPrefix (normalizedKey tbl k) "loose-".toList) := by
  have hnk := normalizedKey_append_value tbl k v hk
  rw [NormalizeOptionToken_eq tbl _
    (TrimFunc_ne_nil_of_normalizedKey tbl _ (by rw [hnk]; exact hne)), hnk,
    valuePart_append_eq k v hk]
  simp

theorem normalizedKey_of_canonical (tbl : Char → Char) (x : List Char)
    (hx : isCanonicalName tbl x) : normalizedKey tbl x = x := by
  obtain ⟨_, hlow, hhy, heq, htrim, _⟩ := hx
  unfold normalizedKey
  rw [keyPart_of_not_mem x heq, htrim, hlow, Replace_of_not_mem _ _ _ hhy]

/-- C8: `enable-` is stripped without negating.  For every canonical name `x`
and every value text `v`, the token `enable-x` gives `(x, "", false, false)`
and the token `enable-x=v` gives `(x, trimmed v, true, false)`, the value not
being re-interpreted; these are the results of the tokens `x` and `x=v`. -/
theorem NormalizeOptionToken_enable (tbl : Char → Char) (x v : List Char)
    (hx : isCanonicalName tbl x) :
    NormalizeOptionToken tbl ("enable-".toList ++ x) = (x, "".toList, false, false)
    ∧ NormalizeOptionToken tbl (("enable-".toList ++ x) ++ '=' :: v)
        = (x, TrimFunc v IsSpace, true, false)
    ∧ NormalizeOptionToken tbl x = (x, "".toList, false, false)
    ∧ NormalizeOptionToken tbl (x ++ '=' :: v) = (x, TrimFunc v IsSpace, true, false) := by
  have hxk := normalizedKey_of_canonical tbl x hx
  obtain ⟨hxne, hlow, hhy, heq, htrim, hl, hs, hd, he⟩ := hx
  obtain ⟨hno, hnk⟩ := normalizedKey_append_self tbl "enable-".toList x (by decide) rfl
    (by decide) rfl (by decide) hlow hhy heq htrim
  have hne1 : normalizedKey tbl ("enable-".toList ++ x) ≠ [] := by
    rw [hnk]; exact List.cons_ne_nil _ _
  have hne2 : normalizedKey tbl x ≠ [] := by rw [hxk]; exact hxne
  refine ⟨?_, ?_, ?_, ?_⟩
  · rw [NormalizeOptionToken_of_normalizedKey tbl _ hne1 hno, hnk]
    simp [stripLoose, stripNeg, isNegated, HasPrefix, List.isPrefixOf_cons₂]
  · rw [NormalizeOptionToken_of_normalizedKey_value tbl _ v hno hne1, hnk]
    simp [stripLoose, stripNeg, isNegated, HasPrefix, List.isPrefixOf_cons₂]
  · rw [NormalizeOptionToken_of_normalizedKey tbl x hne2 heq, hxk, stripLoose_of_not _ hl,
      stripNeg_of_not _ hs hd he, isNegated_of_not _ hs hd, hl]
    rfl
  · rw [NormalizeOptionToken_of_normalizedKey_value tbl x v heq hne2, hxk,
      stripLoose_of_not _ hl, stripNeg_of_not _ hs hd he, isNegated_of_not _ hs hd, hl]
    simp

/-- C8, at the name `x`: `enable-x` gives `("x", "", false, false)`, and
`enable-x=Off` gives `("x", "Off", true, false)`, the falsey value kept as
written. -/
theorem NormalizeOptionToken_enable_witness :
    (∀ tbl : Char → Char,
      NormalizeOptionToken tbl "enable-x".toList = ("x".toList, "".toList, false, false))
    ∧ (∀ tbl : Char → Char,
      NormalizeOptionToken tbl "enable-x=Off".toList = ("x".toList, "Off".toList, true, false)) :=
  ⟨fun tbl => (NormalizeOptionToken_enable tbl "x".toList "Off".toList
      ⟨List.cons_ne_nil _ _, rfl, by decide, by decide, rfl, rfl, rfl, rfl, rfl⟩).1,
   fun tbl => (NormalizeOptionToken_enable tbl "x".toList "Off".toList
      ⟨List.cons_ne_nil _ _, rfl, by decide, by decide, rfl, rfl, rfl, rfl, rfl⟩).2.1⟩

/-! ## Claims on the option modifiers -/

/-- C9: `ValueRequired` fails (panics) exactly when the option's type is Bool;
on every other option it succeeds and returns the option with
`RequireValue = true` and every other field as it was. -/
theorem ValueRequired_fails_iff_bool (opt : Option) :
    ((∃ e, opt.ValueRequired = Except.error e) ↔ opt.Type' = OptionTypeBool)
    ∧ (opt.Type' ≠ OptionTypeBool →
        ∃ o, opt.ValueRequired = Except.ok o
          ∧ o.RequireValue = true
          ∧ o.Name = opt.Name ∧ o.Shorthand = opt.Shorthand ∧ o.Type' = opt.Type'
          ∧ o.Default = opt.Default ∧ o.Description = opt.Description
          ∧ o.HiddenOnCLI = opt.HiddenOnCLI) := by
  constructor
  · constructor
    · rintro ⟨e, he⟩
      by_contra hb
      simp [Option.ValueRequired, hb] at he
    · intro hb
      exact ⟨_, by simp [Option.ValueRequired, hb]; rfl⟩
  · intro hb
    exact ⟨{ opt with RequireValue := true }, by simp [Option.ValueRequired, hb],
      rfl, rfl, rfl, rfl, rfl, rfl, rfl⟩

theorem Modifier_apply_preserves (p q : Option) (m : Modifier)
    (h : m.apply p = Except.ok q) :
    q.Type' = p.Type' ∧ q.Name = p.Name
    ∧ ((p.Type' = OptionTypeBool → p.RequireValue = false) →
        (q.Type' = OptionTypeBool → q.RequireValue = false)) := by
  cases m with
  | Hidden =>
    simp only [Modifier.apply, Except.ok.injEq] at h
    subst h
    exact ⟨rfl, rfl, fun hp => hp⟩
  | ValueRequired =>
    simp only [Modifier.apply, Option.ValueRequired] at h
    split_ifs at h with hb
    simp only [Except.ok.injEq] at h
    subst h
    exact ⟨rfl, rfl, fun _ hq => absurd hq hb⟩
  | ValueOptional =>
    simp only [Modifier.apply, Except.ok.injEq] at h
    subst h
    exact ⟨rfl, rfl, fun _ _ => rfl⟩

theorem applyModifiers_preserves (ms : List Modifier) (p q : Option)
    (h : applyModifiers p ms = Except.ok q) :
    q.Type' = p.Type' ∧ q.Name = p.Name
    ∧ ((p.Type' = OptionTypeBool → p.RequireValue = false) →
        (q.Type' = OptionTypeBool → q.RequireValue = false)) := by
  induction ms generalizing p with
  | nil =>
    simp only [applyModifiers, Except.ok.injEq] at h
    subst h
    exact ⟨rfl, rfl, fun hp => hp⟩
  | cons m ms ih =>
    simp only [applyModifiers] at h
    cases hm : m.apply p with
    | error e => rw [hm] at h; simp at h
    | ok o =>
      rw [hm] at h
      obtain ⟨t1, n1, i1⟩ := Modifier_apply_preserves p o m hm
      obtain ⟨t2, n2, i2⟩ := ih o h
      exact ⟨t2.trans t1, n2.trans n1, fun hp => i2 (i1 hp)⟩

/-- C10: every option obtained from `StringOption` or `BoolOption` followed by
a finite chain of `Hidden`, `ValueRequired` and `ValueOptional` calls that
completes without a panic has `RequireValue = false` when its type is Bool, and
has the type and the name it was built with; and no single modifier call, on
any option, changes the type or the name. -/
theorem applyModifiers_bool_never_requires (o0 o : Option) (ms : List Modifier)
    (hbuilt : (∃ long short d desc, o0 = StringOption long short d desc)
      ∨ (∃ long short b desc, o0 = BoolOption long short b desc))
    (hrun : applyModifiers o0 ms = Except.ok o) :
    (o.Type' = OptionTypeBool → o.RequireValue = false)
    ∧ o.Type' = o0.Type' ∧ o.Name = o0.Name
    ∧ ∀ (p q : Option) (m : Modifier), m.apply p = Except.ok q →
        q.Type' = p.Type' ∧ q.Name = p.Name := by
  obtain ⟨ht, hn, hi⟩ := applyModifiers_preserves ms o0 o hrun
  refine ⟨hi ?_, ht, hn, fun p q m h => ?_⟩
  · rcases hbuilt with ⟨long, short, d, desc, rfl⟩ | ⟨long, short, b, desc, rfl⟩
    · intro h
      simp [StringOption, OptionTypeString, OptionTypeBool] at h
    · intro _
      rfl
  · obtain ⟨t, n, _⟩ := Modifier_apply_preserves p q m h
    exact ⟨t, n⟩

/-- C10, at `BoolOption("foo_bar", 'f', true, "")` followed by `Hidden` and
`ValueOptional`, and at `StringOption("a_b", 0, "d", "")` followed by
`ValueOptional`, `Hidden` and `ValueRequired`: both chains complete, the first
option is still Bool, named `foo-bar`, with `RequireValue = false`, the second
is still String, named `a-b`; and a chain with `ValueRequired` on a Bool option
does not complete. -/
theorem applyModifiers_bool_never_requires_witness :
    (∃ o, applyModifiers (BoolOption "foo_bar".toList 102 true "".toList)
            [Modifier.Hidden, Modifier.ValueOptional] = Except.ok o
        ∧ o.RequireValue = false ∧ o.HiddenOnCLI = true
        ∧ o.Type' = OptionTypeBool ∧ o.Name = "foo-bar".toList)
    ∧ (∃ o, applyModifiers (StringOption "a_b".toList 0 "d".toList "".toList)
            [Modifier.ValueOptional, Modifier.Hidden, Modifier.ValueRequired] = Except.ok o
        ∧ o.RequireValue = true ∧ o.HiddenOnCLI = true
        ∧ o.Type' = OptionTypeString ∧ o.Name = "a-b".toList)
    ∧ (∃ e, applyModifiers (BoolOption "foo_bar".toList 102 true "".toList)
            [Modifier.Hidden, Modifier.ValueRequired] = Except.error e) :=
  have hb := applyModifiers_bool_never_requires
    (BoolOption "foo_bar".toList 102 true "".toList)
    { Name := "foo-bar".toList, Shorthand := 102, Type' := OptionTypeBool,
      Default := "1".toList, Description := "".toList, RequireValue := false,
      HiddenOnCLI := true }
    [Modifier.Hidden, Modifier.ValueOptional]
    (Or.inr ⟨"foo_bar".toList, 102, true, "".toList, rfl⟩) rfl
  have hs := applyModifiers_bool_never_requires
    (StringOption "a_b".toList 0 "d".toList "".toList)
    { Name := "a-b".toList, Shorthand := 0, Type' := OptionTypeString,
      Default := "d".toList, Description := "".toList, RequireValue := true,
      HiddenOnCLI := true }
    [Modifier.ValueOptional, Modifier.Hidden, Modifier.ValueRequired]
    (Or.inl ⟨"a_b".toList, 0, "d".toList, "".toList, rfl⟩) rfl
  ⟨⟨_, rfl, hb.1 rfl, rfl, hb.2.1, hb.2.2.1⟩,
   ⟨_, rfl, rfl, rfl, hs.2.1, hs.2.2.1⟩,
   ⟨_, rfl⟩⟩

/-! ## Claims on the option constructors -/

theorem not_mem_Replace (s : List Char) (old new : Char) (h : new ≠ old) :
    old ∉ Replace s old new := by
  unfold Replace
  intro hm
  rw [List.mem_map] at hm
  obtain ⟨c, _, hc⟩ := hm
  by_cases e : c = old
  · rw [if_pos e] at hc; exact h hc
  · rw [if_neg e] at hc; exact e hc

theorem Replace_length (s : List Char) (old new : Char) :
    (Replace s old new).length = s.length := by
  simp [Replace]

theorem Replace_getElem? (s : List Char) (old new : Char) (i : Nat) :
    (Replace s old new)[i]? = (s[i]?).map (fun c => if c = old then new else c) := by
  simp [Replace]

/-- C11: the name of an option built by `StringOption` or `BoolOption` is the
long name with every `_` replaced by `-`: it has the length of the long name,
at every position it carries `-` where the long name has `_` and the rune of
the long name elsewhere, and it contains no `_`. -/
theorem constructors_name_hyphenated (long : List Char) (short : Int) (d : List Char)
    (b : Bool) (desc : List Char) :
    ((StringOption long short d desc).Name = Replace long '_' '-'
      ∧ (BoolOption long short b desc).Name = Replace long '_' '-')
    ∧ ('_' ∉ (StringOption long short d desc).Name
      ∧ '_' ∉ (BoolOption long short b desc).Name)
    ∧ ((StringOption long short d desc).Name.length = long.length
      ∧ (BoolOption long short b desc).Name.length = long.length)
    ∧ (∀ i : Nat,
        (StringOption long short d desc).Name[i]?
            = (long[i]?).map (fun c => if c = '_' then '-' else c)
        ∧ (BoolOption long short b desc).Name[i]?
            = (long[i]?).map (fun c => if c = '_' then '-' else c)) :=
  ⟨⟨rfl, rfl⟩,
   ⟨not_mem_Replace long '_' '-' (by decide), not_mem_Replace long '_' '-' (by decide)⟩,
   ⟨Replace_length long '_' '-', Replace_length long '_' '-'⟩,
   fun i => ⟨Replace_getElem? long '_' '-' i, Replace_getElem? long '_' '-' i⟩⟩

/-- C12: the fields set by the two constructors.  `StringOption` gives type
String, the default, shorthand and description passed in, `RequireValue = true`
and `HiddenOnCLI = false`; `BoolOption` gives type Bool, the default `"1"` for
`true` and `""` for `false`, `RequireValue = false` and `HiddenOnCLI = false`. -/
theorem constructors_fields (long : List Char) (short : Int) (d : List Char)
    (b : Bool) (desc : List Char) :
    ((StringOption long short d desc).Type' = OptionTypeString
      ∧ (StringOption long short d desc).Default = d
      ∧ (StringOption long short d desc).Shorthand = short
      ∧ (StringOption long short d desc).Description = desc
      ∧ (StringOption long short d desc).RequireValue = true
      ∧ (StringOption long short d desc).HiddenOnCLI = false)
    ∧ ((BoolOption long short b desc).Type' = OptionTypeBool
      ∧ (BoolOption long short b desc).Default = (if b = true then "1".toList else "".toList)
      ∧ (BoolOption long short true desc).Default = "1".toList
      ∧ (BoolOption long short false desc).Default = "".toList
      ∧ (BoolOption long short b desc).Shorthand = short
      ∧ (BoolOption long short b desc).Description = desc
      ∧ (BoolOption long short b desc).RequireValue = false
      ∧ (BoolOption long short b desc).HiddenOnCLI = false) :=
  ⟨⟨rfl, rfl, rfl, rfl, rfl, rfl⟩, ⟨rfl, rfl, rfl, rfl, rfl, rfl, rfl, rfl⟩⟩

/-! ## Claims on defaults, usage names and error messages -/

theorem HasNonzeroDefault_BoolOption (tbl : Char → Char) (long : List Char) (short : Int)
    (b : Bool) (desc : List Char) :
    (BoolOption long short b desc).HasNonzeroDefault tbl = b := by
  cases b <;> rfl

theorem usageName_BoolOption (tbl : Char → Char) (long : List Char) (short : Int)
    (b : Bool) (desc : List Char) :
    (BoolOption long short b desc).usageName tbl
      = if b = true then "[skip-]".toList ++ Replace long '_' '-' else Replace long '_' '-' := by
  cases b <;> rfl

theorem PrintableDefault_iff_HasNonzeroDefault (tbl : Char → Char) (opt : Option)
    (hb : opt.Type' = OptionTypeBool) :
    opt.PrintableDefault tbl = "true".toList ↔ opt.HasNonzeroDefault tbl = true := by
  have hs : ¬ opt.Type' = OptionTypeString := by
    rw [hb]; decide
  unfold Option.PrintableDefault Option.HasNonzeroDefault
  rw [if_pos hb, if_neg hs, if_pos hb]
  split_ifs with h
  · constructor
    · intro e; exact absurd e (by decide)
    · intro e; exact absurd e (by decide)
  · exact ⟨fun _ => rfl, fun _ => rfl⟩

theorem HasNonzeroDefault_false_iff (tbl : Char → Char) (opt : Option)
    (hb : opt.Type' = OptionTypeBool) :
    opt.HasNonzeroDefault tbl = false ↔
      ToLower tbl opt.Default ∈ ["".toList, "0".toList, "off".toList, "false".toList] := by
  have hs : ¬ opt.Type' = OptionTypeString := by
    rw [hb]; decide
  unfold Option.HasNonzeroDefault
  rw [if_neg hs, if_pos hb]
  split_ifs with h
  · simp only [List.mem_cons, List.mem_singleton, true_iff]
    rcases h with h | h | h | h
    · exact Or.inl h
    · exact Or.inr (Or.inl h)
    · exact Or.inr (Or.inr (Or.inl h))
    · exact Or.inr (Or.inr (Or.inr (Or.inl h)))
  · constructor
    · intro e; exact absurd e (by decide)
    · intro hm
      exfalso
      apply h
      simp only [List.mem_cons, List.mem_singleton] at hm
      rcases hm with hm | hm | hm | hm | hm
      · exact Or.inl hm
      · exact Or.inr (Or.inl hm)
      · exact Or.inr (Or.inr (Or.inl hm))
      · exact Or.inr (Or.inr (Or.inr hm))
      · exact absurd hm (List.not_mem_nil _)

/-- C18: defaults of Bool options.  `HasNonzeroDefault` of
`BoolOption(long, short, b, desc)` is `b`, and `PrintableDefault` is `"true"`
exactly when `b` is true (it is `"false"` otherwise); for every Bool-typed
option `PrintableDefault` is `"true"` if and only if `HasNonzeroDefault` is
true, both being false exactly when the lower-cased default is `""`, `"0"`,
`"off"` or `"false"`; and `usageName` of a built Bool option is the name with
`[skip-]` in front exactly when `b` is true. -/
theorem BoolOption_defaults (tbl : Char → Char) (long : List Char) (short : Int)
    (b : Bool) (desc : List Char) :
    (BoolOption long short b desc).HasNonzeroDefault tbl = b
    ∧ ((BoolOption long short b desc).PrintableDefault tbl = "true".toList ↔ b = true)
    ∧ ((BoolOption long short b desc).PrintableDefault tbl = "false".toList ↔ b = false)
    ∧ (∀ opt : Option, opt.Type' = OptionTypeBool →
        (opt.PrintableDefault tbl = "true".toList ↔ opt.HasNonzeroDefault tbl = true))
    ∧ (∀ opt : Option, opt.Type' = OptionTypeBool →
        (opt.HasNonzeroDefault tbl = false ↔
          ToLower tbl opt.Default ∈ ["".toList, "0".toList, "off".toList, "false".toList]))
    ∧ (BoolOption long short b desc).usageName tbl
        = (if b = true then "[skip-]".toList else "".toList)
            ++ (BoolOption long short b desc).Name := by
  refine ⟨HasNonzeroDefault_BoolOption tbl long short b desc, ?_, ?_,
    fun opt hb => PrintableDefault_iff_HasNonzeroDefault tbl opt hb,
    fun opt hb => HasNonzeroDefault_false_iff tbl opt hb, ?_⟩
  · cases b
    · have e : (BoolOption long short false desc).PrintableDefault tbl = "false".toList := rfl
      rw [e]
      exact ⟨fun e => absurd e (by decide), fun e => absurd e (by decide)⟩
    · exact ⟨fun _ => rfl, fun _ => rfl⟩
  · cases b
    · exact ⟨fun _ => rfl, fun _ => rfl⟩
    · have e : (BoolOption long short true desc).PrintableDefault tbl = "true".toList := rfl
      rw [e]
      exact ⟨fun e => absurd e (by decide), fun e => absurd e (by decide)⟩
  · cases b <;> rfl

/-- C15: the usage text of a hidden option is empty, whatever the other fields,
the maximal name length, the terminal and the word wrapper; in particular
after `Hidden()`. -/
theorem Usage_hidden (tbl : Char → Char) (wrap : List Char → Nat → List Char)
    (isTerminal : Bool) (termWidth : Int) (opt : Option) (maxNameLength : Int)
    (h : opt.HiddenOnCLI = true) :
    opt.Usage tbl wrap isTerminal termWidth maxNameLength = "".toList
    ∧ ∀ o : Option, o.Hidden.Usage tbl wrap isTerminal termWidth maxNameLength = "".toList := by
  constructor
  · unfold Option.Usage; rw [if_pos h]
  · intro o; rfl

/-- C15, at `StringOption("foo", 'f', "d", "text").Hidden()`. -/
theorem Usage_hidden_witness :
    (∀ (tbl : Char → Char) (wrap : List Char → Nat → List Char),
      (StringOption "foo".toList 102 "d".toList "text".toList).Hidden.Usage tbl wrap true 120 20
        = "".toList)
    ∧ (∀ (tbl : Char → Char) (wrap : List Char → Nat → List Char),
      (StringOption "foo".toList 102 "d".toList "text".toList).Hidden.Usage tbl wrap false 0 3
        = "".toList) :=
  ⟨fun tbl wrap => (Usage_hidden tbl wrap true 120
      (StringOption "foo".toList 102 "d".toList "text".toList).Hidden 20 rfl).1,
   fun tbl wrap => (Usage_hidden tbl wrap false 0
      (StringOption "foo".toList 102 "d".toList "text".toList).Hidden 3 rfl).1⟩

/-- C16: the two error messages.  With the label `Source: ` in front when
`Source` is non-empty and nothing in front when it is empty,
`OptionNotDefinedError` reads `Unknown option "Name"` and
`OptionMissingValueError` reads `Missing required value for option Name`. -/
theorem Error_messages (name source : List Char) :
    (OptionNotDefinedError.mk name source).Error
        = (if source = [] then [] else source ++ ": ".toList)
            ++ ("Unknown option \"".toList ++ name ++ "\"".toList)
    ∧ (OptionMissingValueError.mk name source).Error
        = (if source = [] then [] else source ++ ": ".toList)
            ++ ("Missing required value for option ".toList ++ name)
    ∧ (OptionNotDefinedError.mk name []).Error
        = "Unknown option \"".toList ++ name ++ "\"".toList
    ∧ (OptionMissingValueError.mk name []).Error
        = "Missing required value for option ".toList ++ name := by
  refine ⟨?_, ?_, rfl, rfl⟩
  · unfold OptionNotDefinedError.Error
    by_cases h : source = []
    · subst h; rfl
    · have h2 : source ≠ "".toList := h
      simp only [h, h2, if_false, if_true, ne_eq, not_false_eq_true, List.append_assoc]
  · unfold OptionMissingValueError.Error
    by_cases h : source = []
    · subst h; rfl
    · have h2 : source ≠ "".toList := h
      simp only [h, h2, if_false, if_true, ne_eq, not_false_eq_true, List.append_assoc]

/-! ## Round trip between usage names and normalization -/

theorem NormalizeOptionToken_canonical (tbl : Char → Char) (x : List Char)
    (hx : isCanonicalName tbl x) :
    NormalizeOptionToken tbl x = (x, [], false, false) := by
  have hxk := normalizedKey_of_canonical tbl x hx
  obtain ⟨hxne, _, _, heq, _, hl, hs, hd, he⟩ := hx
  have hne : normalizedKey tbl x ≠ [] := by rw [hxk]; exact hxne
  rw [NormalizeOptionToken_of_normalizedKey tbl x hne heq, hxk, stripLoose_of_not _ hl,
    stripNeg_of_not _ hs hd he, isNegated_of_not _ hs hd, hl]

/-- C13, as stated, fails: `StringOption("Foo", ...)` is not hidden and is
named `Foo`, but normalizing `Foo` gives the key `foo`; `BoolOption("skip-x",
...)` is named `skip-x`, but normalizing `skip-x` gives the key `x`. -/
theorem Name_roundtrip_counterexample :
    (∀ tbl : Char → Char,
      (StringOption "Foo".toList 0 "".toList "".toList).HiddenOnCLI = false
      ∧ (StringOption "Foo".toList 0 "".toList "".toList).Name = "Foo".toList
      ∧ (NormalizeOptionToken tbl (StringOption "Foo".toList 0 "".toList "".toList).Name).1
          = "foo".toList
      ∧ (NormalizeOptionToken tbl (StringOption "Foo".toList 0 "".toList "".toList).Name).1
          ≠ (StringOption "Foo".toList 0 "".toList "".toList).Name)
    ∧ (∀ tbl : Char → Char,
      (BoolOption "skip-x".toList 0 false "".toList).HiddenOnCLI = false
      ∧ (BoolOption "skip-x".toList 0 false "".toList).Name = "skip-x".toList
      ∧ (NormalizeOptionToken tbl (BoolOption "skip-x".toList 0 false "".toList).Name).1
          = "x".toList
      ∧ (NormalizeOptionToken tbl (BoolOption "skip-x".toList 0 false "".toList).Name).1
          ≠ (BoolOption "skip-x".toList 0 false "".toList).Name) :=
  ⟨fun tbl => ⟨rfl, rfl, rfl,
     (show (NormalizeOptionToken tbl
        (StringOption "Foo".toList 0 "".toList "".toList).Name).1 = "foo".toList
       from rfl).trans_ne (by decide)⟩,
   fun tbl => ⟨rfl, rfl, rfl,
     (show (NormalizeOptionToken tbl
        (BoolOption "skip-x".toList 0 false "".toList).Name).1 = "x".toList
       from rfl).trans_ne (by decide)⟩⟩

/-- C13, amended: when the long name, with `_` replaced by `-`, is a canonical
name, the usage name of an option built by `StringOption` or `BoolOption` is
the option's name with the annotation ` value`, `[=value]` (after
`ValueOptional`) or `[skip-]` around it, and normalizing the name gives back
the option's own name, as key of `NormalizeOptionToken` and as result of
`NormalizeOptionName`. -/
theorem Name_roundtrip (tbl : Char → Char) (long : List Char) (short : Int)
    (d : List Char) (b : Bool) (desc : List Char)
    (hcan : isCanonicalName tbl (Replace long '_' '-')) :
    ((StringOption long short d desc).usageName tbl
        = (StringOption long short d desc).Name ++ " value".toList
      ∧ (StringOption long short d desc).ValueOptional.usageName tbl
        = (StringOption long short d desc).Name ++ "[=value]".toList
      ∧ (BoolOption long short b desc).usageName tbl
        = (if b = true then "[skip-]".toList else "".toList)
            ++ (BoolOption long short b desc).Name)
    ∧ (NormalizeOptionToken tbl (StringOption long short d desc).Name).1
        = (StringOption long short d desc).Name
    ∧ (NormalizeOptionToken tbl (BoolOption long short b desc).Name).1
        = (BoolOption long short b desc).Name
    ∧ NormalizeOptionName tbl (StringOption long short d desc).Name
        = (StringOption long short d desc).Name
    ∧ NormalizeOptionName tbl (BoolOption long short b desc).Name
        = (BoolOption long short b desc).Name := by
  have h := NormalizeOptionToken_canonical tbl (Replace long '_' '-') hcan
  have hk : (NormalizeOptionToken tbl (Replace long '_' '-')).1 = Replace long '_' '-' := by
    rw [h]
  refine ⟨⟨rfl, rfl, ?_⟩, hk, hk, hk, hk⟩
  cases b <;> rfl

/-- C13 amended, at `StringOption("foo_bar", ...)` and
`BoolOption("foo_bar", ...)`, both named `foo-bar`. -/
theorem Name_roundtrip_witness :
    (∀ tbl : Char → Char,
      (NormalizeOptionToken tbl (StringOption "foo_bar".toList 0 "".toList "".toList).Name).1
        = "foo-bar".toList)
    ∧ (∀ tbl : Char → Char,
      (NormalizeOptionToken tbl (BoolOption "foo_bar".toList 0 true "".toList).Name).1
        = "foo-bar".toList) :=
  ⟨fun tbl => (Name_roundtrip tbl "foo_bar".toList 0 "".toList true "".toList
      ⟨List.cons_ne_nil _ _, rfl, by decide, by decide, rfl, rfl, rfl, rfl, rfl⟩).2.1,
   fun tbl => (Name_roundtrip tbl "foo_bar".toList 0 "".toList true "".toList
      ⟨List.cons_ne_nil _ _, rfl, by decide, by decide, rfl, rfl, rfl, rfl, rfl⟩).2.2.1⟩

/-! ## Invariants of the normalization result -/

theorem toNat_ofNat_of_lt (m : Nat) (h : m < 0xd800) : (Char.ofNat m).toNat = m := by
  have hv : m.isValidChar := Or.inl h
  unfold Char.ofNat
  rw [dif_pos hv]
  simp [Char.ofNatAux, Char.toNat, UInt32.toNat]

theorem eq_of_toLower_eq (c : Char) (h : Char.toLower c = '=') : c = '=' := by
  unfold Char.toLower at h
  simp only at h
  split_ifs at h with hc
  · exfalso
    have h2 := congrArg Char.toNat h
    rw [toNat_ofNat_of_lt _ (by omega)] at h2
    have e : ('=' : Char).toNat = 61 := rfl
    omega
  · exact h

theorem eq_of_unicodeToLower_eq (tbl : Char → Char)
    (htbl : ∀ c : Char, 0x7F < c.toNat → tbl c ≠ '=') (c : Char)
    (h : unicodeToLower tbl c = '=') : c = '=' := by
  unfold unicodeToLower at h
  split_ifs at h with hc
  · exact eq_of_toLower_eq c h
  · exact absurd h (htbl c (by omega))

theorem not_mem_keyPart (arg : List Char) : '=' ∉ keyPart arg := by
  intro h
  have := List.mem_takeWhile_imp h
  simp at this

theorem mem_of_mem_TrimFunc (s : List Char) (f : Char → Bool) (c : Char)
    (h : c ∈ TrimFunc s f) : c ∈ s :=
  (List.dropWhile_suffix f).subset ((List.rdropWhile_prefix f _).subset h)

theorem not_mem_normalizedKey (tbl : Char → Char)
    (htbl : ∀ c : Char, 0x7F < c.toNat → tbl c ≠ '=') (arg : List Char) :
    '=' ∉ normalizedKey tbl arg := by
  intro h
  unfold normalizedKey Replace ToLower at h
  rw [List.map_map, List.mem_map] at h
  obtain ⟨c, hc, he⟩ := h
  have hc2 : c ∈ keyPart arg := mem_of_mem_TrimFunc _ _ _ hc
  simp only [Function.comp] at he
  have hl : unicodeToLower tbl c = '=' := by
    by_cases hu : unicodeToLower tbl c = '_'
    · rw [if_pos hu] at he; exact absurd he (by decide)
    · rw [if_neg hu] at he; exact he
  have := eq_of_unicodeToLower_eq tbl htbl c hl
  subst this
  exact not_mem_keyPart arg hc2

theorem mem_of_mem_stripLoose (k : List Char) (c : Char) (h : c ∈ stripLoose k) : c ∈ k := by
  unfold stripLoose at h
  split_ifs at h
  · exact List.mem_of_mem_drop h
  · exact h

theorem mem_of_mem_stripNeg (k : List Char) (c : Char) (h : c ∈ stripNeg k) : c ∈ k := by
  unfold stripNeg at h
  split_ifs at h
  · exact List.mem_of_mem_drop h
  · exact List.mem_of_mem_drop h
  · exact List.mem_of_mem_drop h
  · exact h

theorem mem_normalizedKey_of_mem_key (tbl : Char → Char) (arg : List Char) (c : Char)
    (h : c ∈ (NormalizeOptionToken tbl arg).1) : c ∈ normalizedKey tbl arg := by
  by_cases hk : TrimFunc (keyPart arg) IsSpace = []
  · rw [NormalizeOptionToken_zero tbl arg hk] at h
    exact absurd h (List.not_mem_nil _)
  · rw [NormalizeOptionToken_eq tbl arg hk] at h
    exact mem_of_mem_stripLoose _ _ (mem_of_mem_stripNeg _ _ h)

/-- C19: invariants of the result of `NormalizeOptionToken`, for every raw
string and every case table in which no rune above U+007F lower-cases to `=`
(true of the Unicode table).  If `hasValue` is false the value is `""`; the
key contains no `_` and no `=`; and `hasValue` is true exactly when the trimmed
key part is non-empty and the raw string contains `=` or a `skip-`/`disable-`
prefix was stripped. -/
theorem NormalizeOptionToken_invariants (tbl : Char → Char) (arg : List Char)
    (htbl : ∀ c : Char, 0x7F < c.toNat → tbl c ≠ '=') :
    ((NormalizeOptionToken tbl arg).2.2.1 = false → (NormalizeOptionToken tbl arg).2.1 = [])
    ∧ '_' ∉ (NormalizeOptionToken tbl arg).1
    ∧ '=' ∉ (NormalizeOptionToken tbl arg).1
    ∧ ((NormalizeOptionToken tbl arg).2.2.1 = true ↔
        (TrimFunc (keyPart arg) IsSpace ≠ []
          ∧ ('=' ∈ arg ∨ isNegated (stripLoose (normalizedKey tbl arg)) = true))) := by
  refine ⟨?_, ?_, ?_, ?_⟩
  · by_cases hk : TrimFunc (keyPart arg) IsSpace = []
    · intro _; rw [NormalizeOptionToken_zero tbl arg hk]
    · rw [NormalizeOptionToken_eq tbl arg hk]
      intro h
      simp only [Bool.or_eq_false_iff, decide_eq_false_iff_not] at h
      simp only [h.1, if_false]
  · intro h
    have := mem_normalizedKey_of_mem_key tbl arg _ h
    exact not_mem_Replace _ '_' '-' (by decide) this
  · intro h
    exact not_mem_normalizedKey tbl htbl arg (mem_normalizedKey_of_mem_key tbl arg _ h)
  · by_cases hk : TrimFunc (keyPart arg) IsSpace = []
    · rw [NormalizeOptionToken_zero tbl arg hk]
      simp [hk]
    · rw [NormalizeOptionToken_eq tbl arg hk]
      simp [hk]

/-- C19, at `Skip_Foo=Off` and at `loose-x`, with a case table that leaves the
runes above U+007F as they are. -/
theorem NormalizeOptionToken_invariants_witness :
    ('_' ∉ (NormalizeOptionToken (fun c => c) "Skip_Foo=Off".toList).1
      ∧ '=' ∉ (NormalizeOptionToken (fun c => c) "Skip_Foo=Off".toList).1
      ∧ (NormalizeOptionToken (fun c => c) "Skip_Foo=Off".toList).2.2.1 = true)
    ∧ ((NormalizeOptionToken (fun c => c) "loose-x".toList).2.2.1 = false
      ∧ (NormalizeOptionToken (fun c => c) "loose-x".toList).2.1 = []) :=
  have ht : ∀ c : Char, 0x7F < c.toNat → (fun c : Char => c) c ≠ '=' :=
    fun c hc e => absurd hc (by rw [show c = '=' from e]; decide)
  have h1 := NormalizeOptionToken_invariants (fun c => c) "Skip_Foo=Off".toList ht
  have h2 := NormalizeOptionToken_invariants (fun c => c) "loose-x".toList ht
  ⟨⟨h1.2.1, h1.2.2.1, h1.2.2.2.mpr ⟨by decide, Or.inl (by decide)⟩⟩, rfl, h2.1 rfl⟩

/-! ## Usage text: shape -/

theorem lineWidth_eq (isTerminal : Bool) (termWidth : Int) :
    (if isTerminal = true then (if termWidth < 80 then 80 else termWidth) else 10000)
      = lineWidth isTerminal termWidth := by
  unfold lineWidth
  cases isTerminal
  · rfl
  · simp only [if_true]
    by_cases h : termWidth < 80
    · rw [if_pos h, max_eq_right (le_of_lt h)]
    · rw [if_neg h, max_eq_left (not_lt.mp h)]

/-- The usage text of an option that is not hidden: the left column, the
description column, wrapped when the two together exceed the line width, and a
newline. -/
theorem Usage_eq (tbl : Char → Char) (wrap : List Char → Nat → List Char)
    (isTerminal : Bool) (termWidth : Int) (opt : Option) (maxNameLength : Int)
    (hvis : opt.HiddenOnCLI = false) :
    opt.Usage tbl wrap isTerminal termWidth maxNameLength =
      leftColumn tbl opt maxNameLength
        ++ (if (byteLen (descColumn tbl opt) : Int)
              + (byteLen (leftColumn tbl opt maxNameLength) : Int)
              > lineWidth isTerminal termWidth then
            ReplaceWith
              (wrap (descColumn tbl opt)
                (uintOf (lineWidth isTerminal termWidth
                  - (byteLen (leftColumn tbl opt maxNameLength) : Int))))
              '\n' ('\n' :: spaces (byteLen (leftColumn tbl opt maxNameLength)))
           else descColumn tbl opt)
        ++ ['\n'] := by
  have hm : -1 * maxNameLength = -maxNameLength := by omega
  unfold Option.Usage
  simp only [hvis, Bool.false_eq_true, if_false, lineWidth_eq, hm]
  rfl

theorem byteLen_append (a b : List Char) : byteLen (a ++ b) = byteLen a + byteLen b := by
  simp [byteLen]

theorem byteLen_spaces (n : Nat) : byteLen (spaces n) = n := by
  induction n with
  | zero => rfl
  | succ n ih =>
    have : spaces (n + 1) = ' ' :: spaces n := rfl
    rw [this]
    have h2 : byteLen (' ' :: spaces n) = 1 + byteLen (spaces n) := rfl
    rw [h2, ih]; omega

theorem firstLine_cons_newline (s : List Char) : firstLine ('\n' :: s) = [] := rfl

theorem firstLine_cons_of_ne (c : Char) (s : List Char) (h : c ≠ '\n') :
    firstLine (c :: s) = c :: firstLine s := by
  unfold firstLine
  rw [List.takeWhile_cons_of_pos (by simpa using h)]

theorem restLines_cons_of_ne (c : Char) (s : List Char) (h : c ≠ '\n') :
    restLines (c :: s) = restLines s := by
  rw [restLines, if_neg h]

theorem restLines_cons_newline (s : List Char) :
    restLines ('\n' :: s) = firstLine s :: restLines s := rfl

theorem firstLine_append_of_not_mem (a b : List Char) (h : '\n' ∉ a) :
    firstLine (a ++ b) = a ++ firstLine b := by
  induction a with
  | nil => rfl
  | cons c a ih =>
    have hc : c ≠ '\n' := fun e => h (by simp [e])
    have ha : '\n' ∉ a := fun e => h (by simp [e])
    rw [List.cons_append, firstLine_cons_of_ne _ _ hc, ih ha]
    rfl

theorem firstLine_append_of_mem (a b : List Char) (h : '\n' ∈ a) :
    firstLine (a ++ b) = firstLine a := by
  induction a with
  | nil => exact absurd h (List.not_mem_nil _)
  | cons c a ih =>
    by_cases hc : c = '\n'
    · subst hc; rfl
    · have ha : '\n' ∈ a := by
        rcases List.mem_cons.mp h with e | e
        · exact absurd e.symm hc
        · exact e
      rw [List.cons_append, firstLine_cons_of_ne _ _ hc, firstLine_cons_of_ne _ _ hc, ih ha]

theorem firstLine_of_not_mem (a : List Char) (h : '\n' ∉ a) : firstLine a = a := by
  have := firstLine_append_of_not_mem a [] h
  simpa [firstLine] using this

theorem restLines_append_of_not_mem (a b : List Char) (h : '\n' ∉ a) :
    restLines (a ++ b) = restLines b := by
  induction a with
  | nil => rfl
  | cons c a ih =>
    have hc : c ≠ '\n' := fun e => h (by simp [e])
    have ha : '\n' ∉ a := fun e => h (by simp [e])
    rw [List.cons_append, restLines_cons_of_ne _ _ hc, ih ha]

theorem byteLen_firstLine_le (s : List Char) : byteLen (firstLine s) ≤ byteLen s := by
  induction s with
  | nil => exact Nat.le_refl _
  | cons c s ih =>
    by_cases hc : c = '\n'
    · subst hc; rw [firstLine_cons_newline]; exact Nat.zero_le _
    · rw [firstLine_cons_of_ne _ _ hc]
      have h1 : byteLen (c :: firstLine s) = c.utf8Size + byteLen (firstLine s) := rfl
      have h2 : byteLen (c :: s) = c.utf8Size + byteLen s := rfl
      omega

theorem byteLen_le_of_mem_restLines (s l : List Char) (h : l ∈ restLines s) :
    byteLen l ≤ byteLen s := by
  induction s with
  | nil => exact absurd h (List.not_mem_nil _)
  | cons c s ih =>
    have h2 : byteLen (c :: s) = c.utf8Size + byteLen s := rfl
    by_cases hc : c = '\n'
    · subst hc
      rw [restLines_cons_newline] at h
      rcases List.mem_cons.mp h with e | e
      · have := byteLen_firstLine_le s
        rw [e]; omega
      · have := ih e; omega
    · rw [restLines_cons_of_ne _ _ hc] at h
      have := ih h; omega

theorem mem_restLines_append (a b l : List Char) (h : l ∈ restLines (a ++ b)) :
    l ∈ restLines a ∨ l ∈ restLines b ∨ ∃ la ∈ restLines a, l = la ++ firstLine b := by
  induction a with
  | nil => exact Or.inr (Or.inl h)
  | cons c a ih =>
    by_cases hc : c = '\n'
    · subst hc
      rw [List.cons_append, restLines_cons_newline] at h
      rw [restLines_cons_newline]
      rcases List.mem_cons.mp h with e | e
      · by_cases hn : '\n' ∈ a
        · rw [firstLine_append_of_mem a b hn] at e
          exact Or.inl (by rw [e]; exact List.mem_cons_self _ _)
        · rw [firstLine_append_of_not_mem a b hn] at e
          refine Or.inr (Or.inr ⟨firstLine a, List.mem_cons_self _ _, ?_⟩)
          rw [e, firstLine_of_not_mem a hn]
      · rcases ih e with h1 | h1 | ⟨la, hla, hl⟩
        · exact Or.inl (List.mem_cons_of_mem _ h1)
        · exact Or.inr (Or.inl h1)
        · exact Or.inr (Or.inr ⟨la, List.mem_cons_of_mem _ hla, hl⟩)
    · rw [List.cons_append, restLines_cons_of_ne _ _ hc] at h
      rw [restLines_cons_of_ne _ _ hc]
      exact ih h

theorem not_mem_spaces (n : Nat) : '\n' ∉ spaces n := by
  intro h
  have := List.eq_of_mem_replicate h
  exact absurd this (by decide)

theorem firstLine_ReplaceWith (w : List Char) (n : Nat) :
    firstLine (ReplaceWith w '\n' ('\n' :: spaces n)) = firstLine w := by
  induction w with
  | nil => rfl
  | cons c w ih =>
    by_cases hc : c = '\n'
    · subst hc
      rw [ReplaceWith, if_pos rfl]
      rfl
    · rw [ReplaceWith, if_neg hc, firstLine_cons_of_ne _ _ hc, firstLine_cons_of_ne _ _ hc, ih]

theorem restLines_ReplaceWith (w : List Char) (n : Nat) :
    restLines (ReplaceWith w '\n' ('\n' :: spaces n))
      = (restLines w).map (fun l => spaces n ++ l) := by
  induction w with
  | nil => rfl
  | cons c w ih =>
    by_cases hc : c = '\n'
    · subst hc
      rw [ReplaceWith, if_pos rfl, List.cons_append, restLines_cons_newline,
        restLines_cons_newline, firstLine_append_of_not_mem _ _ (not_mem_spaces n),
        restLines_append_of_not_mem _ _ (not_mem_spaces n), firstLine_ReplaceWith, ih]
      rfl
    · rw [ReplaceWith, if_neg hc, restLines_cons_of_ne _ _ hc, restLines_cons_of_ne _ _ hc, ih]

/-! ## Claims on the usage text -/

/-- C17, as stated, fails: for `BoolOption("x", 0, false, "d")` and
`maxNameLength = 3` the usage text is `      --x    d` and a newline: the
padding blanks follow the name `x`, they do not precede it, so the text starts
with neither right-justified form of the left column (with or without the
blank that the code puts before `--`). -/
theorem Usage_left_column_counterexample :
    (∀ (tbl : Char → Char) (wrap : List Char → Nat → List Char),
      (BoolOption "x".toList 0 false "d".toList).Usage tbl wrap false 0 3
        = "      --x    d\n".toList)
    ∧ HasPrefix "      --x    d\n".toList "      --  x  ".toList = false
    ∧ HasPrefix "      --x    d\n".toList "     --  x  ".toList = false :=
  ⟨fun tbl wrap => by
     have hL : leftColumn tbl (BoolOption "x".toList 0 false "d".toList) 3
         = "      --x    ".toList := rfl
     have hD : descColumn tbl (BoolOption "x".toList 0 false "d".toList) = "d".toList := rfl
     rw [Usage_eq tbl wrap false 0 _ 3 rfl, hL, hD, if_neg (by decide)]
     rfl,
   by decide, by decide⟩

theorem fmtStarS_neg (m : Int) (s : List Char) (h0 : 0 ≤ m) (h1 : m ≤ 1000000) :
    fmtStarS (-m) s = s ++ spaces (m.toNat - s.length) := by
  unfold fmtStarS
  have hbad : ¬ (-m > 1000000 ∨ -m < -1000000) := by omega
  rw [if_neg hbad]
  by_cases hz : m = 0
  · subst hz
    simp [spaces]
  · have hneg : -m < 0 := by omega
    rw [if_pos hneg]
    have : (-m).natAbs = m.toNat := by omega
    rw [this]

theorem fmtS3_shorthandText (opt : Option) :
    fmtS3 (shorthandText opt)
      = if opt.Shorthand > 0 then '-' :: fmtC opt.Shorthand :: [','] else "   ".toList := by
  unfold shorthandText
  split_ifs <;> rfl

/-- C17, amended: for an option that is not hidden and a maximal name length
between 0 and one million, the usage text is the left column, the description
column (wrapped or not) and one newline, where the left column is: two blanks,
the shorthand as `-X,` (three blanks when there is none), one blank, `--`, the
display name left-justified in `maxNameLength` columns (the padding blanks
follow a shorter name), and two blanks. -/
theorem Usage_left_column (tbl : Char → Char) (wrap : List Char → Nat → List Char)
    (isTerminal : Bool) (termWidth : Int) (opt : Option) (maxNameLength : Int)
    (hvis : opt.HiddenOnCLI = false) (h0 : 0 ≤ maxNameLength)
    (h1 : maxNameLength ≤ 1000000) :
    leftColumn tbl opt maxNameLength
        = "  ".toList
          ++ (if opt.Shorthand > 0 then '-' :: fmtC opt.Shorthand :: [','] else "   ".toList)
          ++ " --".toList
          ++ (opt.usageName tbl
              ++ spaces (maxNameLength.toNat - (opt.usageName tbl).length))
          ++ "  ".toList
    ∧ ∃ desc : List Char,
        opt.Usage tbl wrap isTerminal termWidth maxNameLength
          = leftColumn tbl opt maxNameLength ++ desc ++ ['\n']
        ∧ (desc = descColumn tbl opt
          ∨ desc = ReplaceWith
              (wrap (descColumn tbl opt)
                (uintOf (lineWidth isTerminal termWidth
                  - (byteLen (leftColumn tbl opt maxNameLength) : Int))))
              '\n' ('\n' :: spaces (byteLen (leftColumn tbl opt maxNameLength)))) := by
  constructor
  · unfold leftColumn
    rw [fmtStarS_neg _ _ h0 h1, fmtS3_shorthandText]
  · rw [Usage_eq tbl wrap isTerminal termWidth opt maxNameLength hvis]
    split_ifs with hw
    · exact ⟨_, rfl, Or.inr rfl⟩
    · exact ⟨_, rfl, Or.inl rfl⟩

/-- C17 amended, at `BoolOption("foo_bar", 'f', true, "d")` with
`maxNameLength = 16` and at `BoolOption("x", 0, false, "d")` with
`maxNameLength = 3`. -/
theorem Usage_left_column_witness :
    (∀ tbl : Char → Char,
      leftColumn tbl (BoolOption "foo_bar".toList 102 true "d".toList) 16
        = "  -f, --[skip-]foo-bar    ".toList)
    ∧ (∀ tbl : Char → Char,
      leftColumn tbl (BoolOption "x".toList 0 false "d".toList) 3
        = "      --x    ".toList) :=
  ⟨fun tbl => (Usage_left_column tbl (fun s _ => s) false 0
      (BoolOption "foo_bar".toList 102 true "d".toList) 16 rfl (by decide) (by decide)).1.trans
      rfl,
   fun tbl => (Usage_left_column tbl (fun s _ => s) false 0
      (BoolOption "x".toList 0 false "d".toList) 3 rfl (by decide) (by decide)).1.trans rfl⟩

theorem firstLine_append_newline (r : List Char) : firstLine (r ++ ['\n']) = firstLine r := by
  by_cases h : '\n' ∈ r
  · exact firstLine_append_of_mem r _ h
  · rw [firstLine_append_of_not_mem r _ h, firstLine_of_not_mem r h]
    exact List.append_nil r

theorem restLines_append_newline_bound (r : List Char) (B : Nat)
    (h : ∀ l ∈ restLines r, byteLen l ≤ B) :
    ∀ l ∈ restLines (r ++ ['\n']), byteLen l ≤ B := by
  intro l hl
  rcases mem_restLines_append r ['\n'] l hl with h1 | h1 | ⟨la, hla, e⟩
  · exact h l h1
  · have e : l = [] := by
      have h2 : restLines ['\n'] = [[]] := rfl
      rw [h2] at h1
      exact List.mem_singleton.mp h1
    rw [e]; exact Nat.zero_le _
  · have e2 : l = la := by rw [e]; exact List.append_nil la
    rw [e2]; exact h la hla

/-- Every physical line of `a ++ t` is within `B` bytes when `a` followed by
the first line of `t` is, and the later lines of `t` are. -/
theorem physicalLines_append_bound (a t : List Char) (B : Nat)
    (hfirst : byteLen a + byteLen (firstLine t) ≤ B)
    (hrest : ∀ l ∈ restLines t, byteLen l ≤ B) :
    ∀ l ∈ physicalLines (a ++ t), byteLen l ≤ B := by
  intro l hl
  unfold physicalLines at hl
  rcases List.mem_cons.mp hl with e | hl
  · by_cases hn : '\n' ∈ a
    · rw [firstLine_append_of_mem a t hn] at e
      have := byteLen_firstLine_le a
      rw [e]; omega
    · rw [firstLine_append_of_not_mem a t hn] at e
      rw [e, byteLen_append]; exact hfirst
  · rcases mem_restLines_append a t l hl with h1 | h1 | ⟨la, hla, e⟩
    · have := byteLen_le_of_mem_restLines a l h1
      omega
    · exact hrest l h1
    · have := byteLen_le_of_mem_restLines a la hla
      rw [e, byteLen_append]; omega

theorem uintOf_le (x : Int) (h : 0 ≤ x) : (uintOf x : Int) ≤ x := by
  unfold uintOf
  have h2 : (2 : Int) ^ 64 = 18446744073709551616 := by norm_num
  rw [h2]
  omega

set_option maxRecDepth 8192 in
/-- C14, as stated, fails: a Bool option whose name is 80 times `a`, shown with
`maxNameLength = 80` on a terminal 80 columns wide, has a left column of 90
bytes without a newline, so whatever the word wrapper returns, the first
physical line of the usage text is longer than the line width 80. -/
theorem Usage_line_width_counterexample :
    lineWidth true 80 = 80
    ∧ ∀ (tbl : Char → Char) (wrap : List Char → Nat → List Char),
        firstLine ((BoolOption (List.replicate 80 'a') 0 false "d".toList).Usage
            tbl wrap true 80 80)
          ∈ physicalLines ((BoolOption (List.replicate 80 'a') 0 false "d".toList).Usage
            tbl wrap true 80 80)
        ∧ 80 < byteLen (firstLine
            ((BoolOption (List.replicate 80 'a') 0 false "d".toList).Usage
              tbl wrap true 80 80)) := by
  refine ⟨rfl, fun tbl wrap => ⟨List.mem_cons_self _ _, ?_⟩⟩
  have hL : leftColumn tbl (BoolOption (List.replicate 80 'a') 0 false "d".toList) 80
      = "      --".toList ++ List.replicate 80 'a' ++ "  ".toList := rfl
  have hnl : '\n' ∉ leftColumn tbl (BoolOption (List.replicate 80 'a') 0 false "d".toList) 80 := by
    rw [hL]; decide
  have hlen : byteLen (leftColumn tbl
      (BoolOption (List.replicate 80 'a') 0 false "d".toList) 80) = 90 := by
    rw [hL]; rfl
  rw [Usage_eq tbl wrap true 80 _ 80 rfl, List.append_assoc,
    firstLine_append_of_not_mem _ _ hnl, byteLen_append, hlen]
  omega

/-- C14, amended: for an option that is not hidden, when the left column is no
longer than the line width in effect and, in case the description is wrapped,
the word wrapper returns lines no longer than the width it is given, no
physical line of the usage text is longer than the line width; and whenever
the description is wrapped, the usage text is the left column, the wrapped
description and a newline, where the first line of the wrapped description is
the first line the wrapper returned and every continuation line is a later
line the wrapper returned behind as many blanks as the left column has bytes.
Lengths are counted in bytes, as `len` does. -/
theorem Usage_line_width (tbl : Char → Char) (wrap : List Char → Nat → List Char)
    (isTerminal : Bool) (termWidth : Int) (opt : Option) (maxNameLength : Int)
    (hvis : opt.HiddenOnCLI = false)
    (hfit : (byteLen (leftColumn tbl opt maxNameLength) : Int)
      ≤ lineWidth isTerminal termWidth)
    (hwrap : (byteLen (descColumn tbl opt) : Int)
        + (byteLen (leftColumn tbl opt maxNameLength) : Int)
        > lineWidth isTerminal termWidth →
      ∀ l ∈ physicalLines (wrap (descColumn tbl opt)
          (uintOf (lineWidth isTerminal termWidth
            - (byteLen (leftColumn tbl opt maxNameLength) : Int)))),
        byteLen l ≤ uintOf (lineWidth isTerminal termWidth
            - (byteLen (leftColumn tbl opt maxNameLength) : Int))) :
    (∀ l ∈ physicalLines (opt.Usage tbl wrap isTerminal termWidth maxNameLength),
        (byteLen l : Int) ≤ lineWidth isTerminal termWidth)
    ∧ ((byteLen (descColumn tbl opt) : Int)
        + (byteLen (leftColumn tbl opt maxNameLength) : Int)
        > lineWidth isTerminal termWidth →
      ∃ r : List Char,
        opt.Usage tbl wrap isTerminal termWidth maxNameLength
          = leftColumn tbl opt maxNameLength ++ r ++ ['\n']
        ∧ physicalLines r
          = firstLine (wrap (descColumn tbl opt)
              (uintOf (lineWidth isTerminal termWidth
                - (byteLen (leftColumn tbl opt maxNameLength) : Int))))
            :: (restLines (wrap (descColumn tbl opt)
                (uintOf (lineWidth isTerminal termWidth
                  - (byteLen (leftColumn tbl opt maxNameLength) : Int))))).map
              (fun l => spaces (byteLen (leftColumn tbl opt maxNameLength)) ++ l)) := by
  have hU := Usage_eq tbl wrap isTerminal termWidth opt maxNameLength hvis
  have hlim := uintOf_le (lineWidth isTerminal termWidth
    - (byteLen (leftColumn tbl opt maxNameLength) : Int)) (by omega)
  constructor
  · intro l hl
    rw [hU, List.append_assoc] at hl
    have hB : byteLen l ≤ (lineWidth isTerminal termWidth).toNat := by
      refine physicalLines_append_bound _ _ _ ?_ ?_ l hl
      · rw [firstLine_append_newline]
        split_ifs with hw
        · have h1 := hwrap hw _ (List.mem_cons_self _ _)
          rw [firstLine_ReplaceWith]
          omega
        · have h1 := byteLen_firstLine_le (descColumn tbl opt)
          omega
      · apply restLines_append_newline_bound
        intro l2 hl2
        split_ifs at hl2 with hw
        · rw [restLines_ReplaceWith, List.mem_map] at hl2
          obtain ⟨l3, hl3, e⟩ := hl2
          have h1 := hwrap hw l3 (List.mem_cons_of_mem _ hl3)
          rw [← e, byteLen_append, byteLen_spaces]
          omega
        · have h1 := byteLen_le_of_mem_restLines _ _ hl2
          omega
    omega
  · intro hw
    rw [hU, if_pos hw]
    refine ⟨_, rfl, ?_⟩
    unfold physicalLines
    rw [firstLine_ReplaceWith, restLines_ReplaceWith]

set_option maxRecDepth 8192 in
/-- C14 amended, at `BoolOption("x", 0, false, desc)` with sixteen four-letter
words as description, `maxNameLength = 1`, a terminal 80 columns wide and a
wrapper that puts every word on its own line: the left column has 11 bytes, the
description 79, so the description is wrapped, and every physical line of the
usage text is within 80 bytes. -/
theorem Usage_line_width_witness :
    (byteLen (descColumn (fun c => c) (BoolOption "x".toList 0 false
        "aaaa bbbb cccc dddd eeee ffff gggg hhhh iiii jjjj kkkk llll mmmm nnnn oooo pppp".toList))
        : Int)
      + (byteLen (leftColumn (fun c => c) (BoolOption "x".toList 0 false
        "aaaa bbbb cccc dddd eeee ffff gggg hhhh iiii jjjj kkkk llll mmmm nnnn oooo pppp".toList)
        1) : Int)
      > lineWidth true 80
    ∧ ∀ l ∈ physicalLines ((BoolOption "x".toList 0 false
        "aaaa bbbb cccc dddd eeee ffff gggg hhhh iiii jjjj kkkk llll mmmm nnnn oooo pppp".toList).Usage
          (fun c => c) (fun s _ => Replace s ' ' '\n') true 80 1),
        (byteLen l : Int) ≤ lineWidth true 80 :=
  ⟨by decide,
   (Usage_line_width (fun c => c) (fun s _ => Replace s ' ' '\n') true 80
      (BoolOption "x".toList 0 false
        "aaaa bbbb cccc dddd eeee ffff gggg hhhh iiii jjjj kkkk llll mmmm nnnn oooo pppp".toList)
      1 rfl (by decide) (fun _ => by decide)).1⟩

end Mybase

namespace Linter

/-! ## Claims on the reserved-words lint rule -/

theorem foldl_append_filterMap {α : Type} (g : List Note → α → List Note)
    (f : α → Option Note) (hg : ∀ res x, g res x = res ++ (f x).toList)
    (l : List α) (init : List Note) :
    l.foldl g init = init ++ l.filterMap f := by
  induction l generalizing init with
  | nil => simp
  | cons x l ih =>
    rw [List.foldl_cons, ih, hg, List.filterMap_cons]
    cases f x <;> simp

theorem tableReservedWordsChecker_eq (flavorString : Flavor → List Char)
    (lineOffset : List Char → List Char → Int) (t : Table) (stmt : List Char)
    (kw : List (List Char × Flavor)) :
    tableReservedWordsChecker flavorString lineOffset t stmt kw
      = (identifiers t).filterMap (fun p =>
          (kw.lookup p.2).map (noteFor flavorString lineOffset t.Name stmt p.1 p.2)) := by
  unfold tableReservedWordsChecker identifiers
  simp only
  rw [foldl_append_filterMap _
      (fun idx : Index => (kw.lookup idx.Name).map
        (noteFor flavorString lineOffset t.Name stmt IdentKind.Index idx.Name))
      (by intro res x; dsimp only; cases h : kw.lookup x.Name <;> simp [noteFor]),
    foldl_append_filterMap _
      (fun fk : ForeignKey => (kw.lookup fk.Name).map
        (noteFor flavorString lineOffset t.Name stmt IdentKind.ForeignKey fk.Name))
      (by intro res x; dsimp only; cases h : kw.lookup x.Name <;> simp [noteFor]),
    foldl_append_filterMap _
      (fun col : Column => (kw.lookup col.Name).map
        (noteFor flavorString lineOffset t.Name stmt IdentKind.Column col.Name))
      (by intro res x; dsimp only; cases h : kw.lookup x.Name <;> simp [noteFor])]
  rw [List.filterMap_cons, List.filterMap_append, List.filterMap_append,
    List.filterMap_map, List.filterMap_map, List.filterMap_map]
  cases h : kw.lookup t.Name <;> simp [noteFor, Function.comp_def]

theorem lookup_isSome_eq_isKeyword (kw : List (List Char × Flavor)) (name : List Char) :
    (kw.lookup name).isSome = isKeyword kw name := by
  unfold isKeyword
  induction kw with
  | nil => rfl
  | cons p kw ih =>
    obtain ⟨k, v⟩ := p
    rw [List.lookup_cons, List.map_cons, List.contains_cons]
    cases h : (name == k)
    · rw [Bool.false_or]; exact ih
    · rfl

theorem reservedWordsChecker_table (flavorString : Flavor → List Char)
    (lineOffset : List Char → List Char → Int) (t : Table) (stmt : List Char)
    (opts : Options) (kw : List (List Char × Flavor))
    (hkw : keywordTable opts.Flavor.Vendor = some kw) :
    reservedWordsChecker flavorString lineOffset (Object.table t) stmt opts
      = tableReservedWordsChecker flavorString lineOffset t stmt kw := by
  unfold keywordTable at hkw
  unfold reservedWordsChecker
  split_ifs at hkw with h1 h2
  · rw [if_pos h1]; injection hkw with e; rw [e]
  · rw [if_neg h1, if_pos h2]; injection hkw with e; rw [e]

theorem length_filterMap_lookup (kw : List (List Char × Flavor))
    (f : IdentKind → List Char → Flavor → Note) (l : List (IdentKind × List Char)) :
    (l.filterMap (fun p => (kw.lookup p.2).map (f p.1 p.2))).length
      = (l.filter (fun p => isKeyword kw p.2)).length := by
  induction l with
  | nil => rfl
  | cons p l ih =>
    rw [List.filterMap_cons, List.filter_cons, ← lookup_isSome_eq_isKeyword]
    cases h : kw.lookup p.2
    · simpa using ih
    · simpa using ih

theorem filterMap_lookup_eq_nil (kw : List (List Char × Flavor))
    (f : IdentKind → List Char → Flavor → Note) (l : List (IdentKind × List Char))
    (h : ∀ p ∈ l, isKeyword kw p.2 = false) :
    l.filterMap (fun p => (kw.lookup p.2).map (f p.1 p.2)) = [] := by
  apply List.eq_nil_of_length_eq_zero
  rw [length_filterMap_lookup, List.length_eq_zero, List.filter_eq_nil_iff]
  intro p hp
  rw [h p hp]
  exact Bool.false_ne_true

/-- C20: the reserved-words checker.  For a table and a vendor with keyword
table `kw` (the MySQL table for MySQL and for Percona, the MariaDB table for
MariaDB), the notes are, in the order table name, columns, foreign keys,
secondary indexes, one note for each identifier whose name is a key of `kw`
and none for the others, so there are as many notes as such identifiers and
none when no identifier matches; there are no notes for a vendor that is none
of the three, nor for an object that is neither a table nor a routine; and
Percona gives what MySQL gives. -/
theorem reservedWordsChecker_notes (flavorString : Flavor → List Char)
    (lineOffset : List Char → List Char → Int) (t : Table) (stmt : List Char)
    (opts : Options) (kw : List (List Char × Flavor))
    (hkw : keywordTable opts.Flavor.Vendor = some kw) :
    reservedWordsChecker flavorString lineOffset (Object.table t) stmt opts
        = (identifiers t).filterMap (fun p =>
            (kw.lookup p.2).map (noteFor flavorString lineOffset t.Name stmt p.1 p.2))
    ∧ (reservedWordsChecker flavorString lineOffset (Object.table t) stmt opts).length
        = ((identifiers t).filter (fun p => isKeyword kw p.2)).length
    ∧ ((∀ p ∈ identifiers t, isKeyword kw p.2 = false) →
        reservedWordsChecker flavorString lineOffset (Object.table t) stmt opts = [])
    ∧ (∀ (o : Options) (obj : Object),
        o.Flavor.Vendor ≠ VendorMySQL → o.Flavor.Vendor ≠ VendorPercona →
        o.Flavor.Vendor ≠ VendorMariaDB →
        reservedWordsChecker flavorString lineOffset obj stmt o = [])
    ∧ (∀ o : Options, reservedWordsChecker flavorString lineOffset Object.other stmt o = [])
    ∧ (keywordTable VendorMySQL = some mysqlKeywordToFlavor
      ∧ keywordTable VendorPercona = some mysqlKeywordToFlavor
      ∧ keywordTable VendorMariaDB = some mariadbKeywordToFlavor)
    ∧ (∀ (obj : Object) (major minor major2 minor2 : Int),
        reservedWordsChecker flavorString lineOffset obj stmt ⟨⟨VendorPercona, major, minor⟩⟩
          = reservedWordsChecker flavorString lineOffset obj stmt
              ⟨⟨VendorMySQL, major2, minor2⟩⟩) := by
  have htab := reservedWordsChecker_table flavorString lineOffset t stmt opts kw hkw
  have heq := tableReservedWordsChecker_eq flavorString lineOffset t stmt kw
  refine ⟨htab.trans heq, ?_, ?_, ?_, ?_, ⟨rfl, rfl, rfl⟩, ?_⟩
  · rw [htab, heq, length_filterMap_lookup]
  · intro h
    rw [htab, heq]
    exact filterMap_lookup_eq_nil kw _ _ h
  · intro o obj h1 h2 h3
    unfold reservedWordsChecker
    rw [if_neg (by rintro (h | h); exact h1 h; exact h2 h), if_neg h3]
  · intro o
    unfold reservedWordsChecker
    split_ifs <;> rfl
  · intro obj major minor major2 minor2
    rfl

set_option maxRecDepth 8192 in
/-- C20, at the table `RANK` with the columns `id`, `OVER`, `rows`, the foreign
key `fk` and the secondary index `WINDOW`: for MySQL the notes are those on
the table `RANK`, the column `OVER` and the index `WINDOW`, in this order (the
lower-case `rows` is no key); for MariaDB, whose table has no `RANK`, those on
the column `OVER` and the index `WINDOW`. -/
theorem reservedWordsChecker_notes_witness :
    (∀ (flavorString : Flavor → List Char) (lineOffset : List Char → List Char → Int),
      (reservedWordsChecker flavorString lineOffset
          (Object.table ⟨"RANK".toList, [⟨"id".toList⟩, ⟨"OVER".toList⟩, ⟨"rows".toList⟩],
            [⟨"fk".toList⟩], [⟨"WINDOW".toList⟩]⟩)
          "CREATE TABLE".toList ⟨FlavorMySQL80⟩).map (fun n => n.Summary)
        = ["Table using a reserved keyword".toList, "Column using a reserved keyword".toList,
           "Index using a reserved keyword".toList])
    ∧ (∀ (flavorString : Flavor → List Char) (lineOffset : List Char → List Char → Int),
      (reservedWordsChecker flavorString lineOffset
          (Object.table ⟨"RANK".toList, [⟨"id".toList⟩, ⟨"OVER".toList⟩, ⟨"rows".toList⟩],
            [⟨"fk".toList⟩], [⟨"WINDOW".toList⟩]⟩)
          "CREATE TABLE".toList ⟨FlavorMariaDB103⟩).map (fun n => n.Summary)
        = ["Column using a reserved keyword".toList, "Index using a reserved keyword".toList]) :=
  ⟨fun flavorString lineOffset =>
     (congrArg (List.map (fun n => n.Summary))
       (reservedWordsChecker_notes flavorString lineOffset
         ⟨"RANK".toList, [⟨"id".toList⟩, ⟨"OVER".toList⟩, ⟨"rows".toList⟩],
           [⟨"fk".toList⟩], [⟨"WINDOW".toList⟩]⟩
         "CREATE TABLE".toList ⟨FlavorMySQL80⟩ mysqlKeywordToFlavor rfl).1).trans rfl,
   fun flavorString lineOffset =>
     (congrArg (List.map (fun n => n.Summary))
       (reservedWordsChecker_notes flavorString lineOffset
         ⟨"RANK".toList, [⟨"id".toList⟩, ⟨"OVER".toList⟩, ⟨"rows".toList⟩],
           [⟨"fk".toList⟩], [⟨"WINDOW".toList⟩]⟩
         "CREATE TABLE".toList ⟨FlavorMariaDB103⟩ mariadbKeywordToFlavor rfl).1).trans rfl⟩

end Linter
